import Mathlib

/-!
Verification of the paged virtual-memory simulator (src/P6/simVM.c).

The C program is shallowly embedded: the `struct VM` becomes a Lean
structure whose arrays are total functions `Nat → _` (C arrays indexed by
nonnegative ints; entries outside the allocated range are modelled by the
defaults produced by `calloc`, i.e. zero), and every C function becomes a
Lean function on that structure.  Machine words stored in simulated memory
and disk are modelled as `Int` (the program only stores and copies them).
Functions returning `-1` as a "not found" sentinel are modelled with
`Option Nat`.
-/

namespace SimVM

/-- Pointwise update of a total function, modelling a C array store. -/
def upd {α : Type} (f : Nat → α) (i : Nat) (v : α) : Nat → α :=
  fun j => if j = i then v else f j

theorem upd_same {α : Type} (f : Nat → α) (i : Nat) (v : α) : upd f i v i = v := by
  simp [upd]

theorem upd_other {α : Type} (f : Nat → α) (i : Nat) (v : α) {j : Nat} (h : j ≠ i) :
    upd f i v j = f j := by
  simp [upd, h]

/-- First index `j` in `[i, i + fuel)` with `f j = true`, scanning upward;
models the ascending `for` loops used for all linear scans in simVM.c. -/
def findFrom (f : Nat → Bool) (i : Nat) : Nat → Option Nat
  | 0 => none
  | fuel + 1 => if f i then some i else findFrom f (i + 1) fuel

theorem findFrom_eq_some {f : Nat → Bool} :
    ∀ {fuel i j : Nat}, findFrom f i fuel = some j →
      i ≤ j ∧ j < i + fuel ∧ f j = true ∧ ∀ k, i ≤ k → k < j → f k = false := by
  intro fuel
  induction fuel with
  | zero => intro i j h; simp [findFrom] at h
  | succ n ih =>
    intro i j h
    simp only [findFrom] at h
    by_cases hfi : f i
    · simp [hfi] at h
      subst h
      exact ⟨le_refl _, by omega, hfi, fun k hk hk2 => absurd hk2 (by omega)⟩
    · simp [hfi] at h
      obtain ⟨h1, h2, h3, h4⟩ := ih h
      refine ⟨by omega, by omega, h3, ?_⟩
      intro k hk hk2
      rcases Nat.eq_or_lt_of_le hk with heq | hlt
      · subst heq; exact Bool.eq_false_iff.mpr hfi
      · exact h4 k hlt hk2

theorem findFrom_eq_none {f : Nat → Bool} :
    ∀ {fuel i : Nat}, findFrom f i fuel = none →
      ∀ k, i ≤ k → k < i + fuel → f k = false := by
  intro fuel
  induction fuel with
  | zero => intro i _ k hk hk2; omega
  | succ n ih =>
    intro i h k hk hk2
    simp only [findFrom] at h
    by_cases hfi : f i
    · simp [hfi] at h
    · simp [hfi] at h
      rcases Nat.eq_or_lt_of_le hk with heq | hlt
      · subst heq; exact Bool.eq_false_iff.mpr hfi
      · exact ih h k hlt (by omega)

theorem findFrom_exists_of_mem {f : Nat → Bool} {fuel i k : Nat}
    (hk : i ≤ k) (hk2 : k < i + fuel) (hf : f k = true) :
    ∃ j, findFrom f i fuel = some j := by
  cases h : findFrom f i fuel with
  | some j => exact ⟨j, rfl⟩
  | none =>
    have := findFrom_eq_none h k hk hk2
    rw [hf] at this
    exact absurd this (by simp)

theorem findFrom_congr {f g : Nat → Bool} :
    ∀ {fuel i : Nat}, (∀ k, i ≤ k → k < i + fuel → f k = g k) →
      findFrom f i fuel = findFrom g i fuel := by
  intro fuel
  induction fuel with
  | zero => intro i _; rfl
  | succ n ih =>
    intro i h
    simp only [findFrom]
    rw [h i (le_refl _) (by omega)]
    by_cases hgi : g i
    · simp [hgi]
    · simp [hgi]
      exact ih (fun k hk hk2 => h k (by omega) (by omega))

/-- Loop body of `minindex`: running minimum `value` with the index `index`
of its first occurrence, scanning `p` upward from `i` for `fuel` steps. -/
def minindexAux (p : Nat → Nat) : Nat → Nat → Nat → Option Nat → Option Nat
  | _, 0, _, index => index
  | i, fuel + 1, value, index =>
      if p i < value then minindexAux p (i + 1) fuel (p i) (some i)
      else minindexAux p (i + 1) fuel value index

/-- The C `minindex`: index of the first minimum of `p` over `[0, n)`,
starting the scan from the sentinel value `2147483647` (`INT_MAX`); `none`
models the C return value `-1` (no entry below the sentinel found). -/
def minindex (p : Nat → Nat) (n : Nat) : Option Nat :=
  minindexAux p 0 n 2147483647 none

theorem minindexAux_const {p : Nat → Nat} :
    ∀ {fuel i value : Nat} {index : Option Nat},
      (∀ k, i ≤ k → k < i + fuel → value ≤ p k) →
      minindexAux p i fuel value index = index := by
  intro fuel
  induction fuel with
  | zero => intro i value index _; rfl
  | succ n ih =>
    intro i value index h
    simp only [minindexAux]
    have hvi : ¬ p i < value := not_lt.mpr (h i (le_refl _) (by omega))
    simp only [hvi, if_false]
    exact ih (fun k hk hk2 => h k (by omega) (by omega))

theorem minindexAux_min {p : Nat → Nat} :
    ∀ {fuel i value : Nat} {index : Option Nat},
      (∃ k, i ≤ k ∧ k < i + fuel ∧ p k < value) →
      ∃ j, minindexAux p i fuel value index = some j ∧ i ≤ j ∧ j < i + fuel ∧
        p j < value ∧ (∀ k, i ≤ k → k < i + fuel → p j ≤ p k) ∧
        (∀ k, i ≤ k → k < j → p j < p k) := by
  intro fuel
  induction fuel with
  | zero =>
    intro i value index h
    obtain ⟨k, hk1, hk2, _⟩ := h
    omega
  | succ n ih =>
    intro i value index h
    simp only [minindexAux]
    by_cases hvi : p i < value
    · simp only [hvi, if_true]
      by_cases hrest : ∃ k, i + 1 ≤ k ∧ k < i + 1 + n ∧ p k < p i
      · obtain ⟨j, hj1, hj2, hj3, hj4, hj5, hj6⟩ := ih hrest
        refine ⟨j, hj1, by omega, by omega, by omega, ?_, ?_⟩
        · intro k hk hk2
          rcases Nat.eq_or_lt_of_le hk with heq | hlt
          · subst heq; omega
          · exact hj5 k hlt (by omega)
        · intro k hk hk2
          rcases Nat.eq_or_lt_of_le hk with heq | hlt
          · subst heq; omega
          · exact hj6 k hlt hk2
      · push_neg at hrest
        have : minindexAux p (i + 1) n (p i) (some i) = some i :=
          minindexAux_const (fun k hk hk2 => hrest k hk (by omega))
        refine ⟨i, this, le_refl _, by omega, hvi, ?_, ?_⟩
        · intro k hk hk2
          rcases Nat.eq_or_lt_of_le hk with heq | hlt
          · subst heq; exact le_refl _
          · exact hrest k hlt (by omega)
        · intro k hk hk2; omega
    · simp only [hvi, if_false]
      obtain ⟨k, hk1, hk2, hk3⟩ := h
      have hk1' : i + 1 ≤ k := by
        rcases Nat.eq_or_lt_of_le hk1 with heq | hlt
        · subst heq; omega
        · omega
      obtain ⟨j, hj1, hj2, hj3, hj4, hj5, hj6⟩ := ih ⟨k, hk1', by omega, hk3⟩
      refine ⟨j, hj1, by omega, by omega, hj4, ?_, ?_⟩
      · intro m hm hm2
        rcases Nat.eq_or_lt_of_le hm with heq | hlt
        · subst heq; omega
        · exact hj5 m hlt (by omega)
      · intro m hm hm2
        rcases Nat.eq_or_lt_of_le hm with heq | hlt
        · subst heq; omega
        · exact hj6 m hlt hm2

theorem minindexAux_lt {p : Nat → Nat} :
    ∀ {fuel i value : Nat} {index : Option Nat} {j : Nat},
      (∀ j0, index = some j0 → j0 < i) →
      minindexAux p i fuel value index = some j → j < i + fuel := by
  intro fuel
  induction fuel with
  | zero =>
    intro i value index j hidx h
    have := hidx j h
    omega
  | succ n ih =>
    intro i value index j hidx h
    simp only [minindexAux] at h
    by_cases hvi : p i < value
    · simp only [hvi, if_true] at h
      have := ih (fun j0 hj0 => by injection hj0 with hj0; omega) h
      omega
    · simp only [hvi, if_false] at h
      have := ih (fun j0 hj0 => by have := hidx j0 hj0; omega) h
      omega

theorem minindex_lt {p : Nat → Nat} {n j : Nat} (h : minindex p n = some j) : j < n := by
  have := minindexAux_lt (p := p) (fun j0 hj0 => by simp at hj0) h
  omega

/-- Page-sized copy of `n` words from `src` (starting at `srcOff`) into
`dst` (starting at `dstOff`); models the `memcpy` calls of simVM.c. -/
def copyWords (dst : Nat → Int) (dstOff : Nat) (src : Nat → Int) (srcOff n : Nat) :
    Nat → Int :=
  fun j => if dstOff ≤ j ∧ j < dstOff + n then src (srcOff + (j - dstOff)) else dst j

theorem copyWords_in {dst : Nat → Int} {dstOff : Nat} {src : Nat → Int} {srcOff n o : Nat}
    (h : o < n) : copyWords dst dstOff src srcOff n (dstOff + o) = src (srcOff + o) := by
  simp only [copyWords]
  have : dstOff ≤ dstOff + o ∧ dstOff + o < dstOff + n := by omega
  rw [if_pos this]
  congr 1
  omega

theorem copyWords_out {dst : Nat → Int} {dstOff : Nat} {src : Nat → Int} {srcOff n j : Nat}
    (h : j < dstOff ∨ dstOff + n ≤ j) : copyWords dst dstOff src srcOff n j = dst j := by
  simp only [copyWords]
  rw [if_neg (by omega)]

/-- The `struct VM` of simVM.c.  Arrays are total functions over `Nat`;
word contents (`mem`, `disk`) are `Int`.  All other int fields of the
program stay nonnegative throughout execution and are modelled as `Nat`.
The `dirty` array holds C ints used as booleans (0/1) and is modelled as
`Nat → Bool`. -/
structure VM where
  pagesize : Nat
  vpage : Nat
  ppage : Nat
  palg : Nat
  pvirt : Nat → Nat
  ptime : Nat → Nat
  dirty : Nat → Bool
  tlb : Nat
  tlbalg : Nat
  ptlb : Nat → Nat
  vtlb : Nat → Nat
  tlbtime : Nat → Nat
  rrp : Nat
  rrt : Nat
  timestamp : Nat
  pc : Nat
  tc : Nat
  dc : Nat
  mem : Nat → Int
  disk : Nat → Int

/-- The C `createVM`.  The C function performs no validation of its
arguments: it unconditionally allocates (calloc, hence zero-filled backing
stores), sets `pvirt[i] = i` for `i < sizePM` and `ptlb[i] = vtlb[i] = i`
for `i < sizeTLB`, and returns the handle.  Indices beyond the allocated
length of each array are given the calloc default 0 to make the model
functions total. -/
def createVM (sizeVM sizePM pageSize sizeTLB pageReplAlg tlbReplAlg : Nat) : VM where
  pagesize := pageSize
  vpage := sizeVM
  ppage := sizePM
  palg := pageReplAlg
  pvirt := fun i => if i < sizePM then i else 0
  ptime := fun _ => 0
  dirty := fun _ => false
  tlb := sizeTLB
  tlbalg := tlbReplAlg
  ptlb := fun i => if i < sizeTLB then i else 0
  vtlb := fun i => if i < sizeTLB then i else 0
  tlbtime := fun _ => 0
  rrp := 0
  rrt := 0
  timestamp := 0
  pc := 0
  tc := 0
  dc := 0
  mem := fun _ => 0
  disk := fun _ => 0

/-- The scan of `lookup_in_tlb_and_mark`: first TLB slot holding virtual
page `pte`, if any. -/
def tlbScan (s : VM) (pte : Nat) : Option Nat :=
  findFrom (fun i => s.vtlb i == pte) 0 s.tlb

/-- The C `lookup_in_tlb_and_mark`: on a hit the slot's `tlbtime` is set to
the current timestamp and the stored frame is returned; `none` models the
C return value `-1`. -/
def lookup_in_tlb_and_mark (s : VM) (pte : Nat) : VM × Option Nat :=
  match tlbScan s pte with
  | some i => ({ s with tlbtime := upd s.tlbtime i s.timestamp }, some (s.ptlb i))
  | none => (s, none)

/-- The C `lookup_in_mem`: first frame whose `pvirt` entry is `pte`. -/
def lookup_in_mem (s : VM) (pte : Nat) : Option Nat :=
  findFrom (fun i => s.pvirt i == pte) 0 s.ppage

/-- The C `mark`: sets the frame's dirty flag when the access is a write
and refreshes its `ptime` timestamp. -/
def mark (s : VM) (pte : Nat) (d : Bool) : VM :=
  { s with dirty := if d then upd s.dirty pte true else s.dirty,
           ptime := upd s.ptime pte s.timestamp }

/-- The C `choose_page`: round-robin (`palg = 0`) advances the cursor
`rrp` modulo `ppage` and returns the pre-advance cursor value; otherwise
LRU via `minindex` over `ptime`. -/
def choose_page (s : VM) : VM × Option Nat :=
  if s.palg = 0 then
    ({ s with rrp := (s.rrp + 1) % s.ppage },
     some (((s.rrp + 1) % s.ppage + s.ppage - 1) % s.ppage))
  else
    (s, minindex s.ptime s.ppage)

/-- The C `choose_tlb`: same two policies over the TLB's own cursor `rrt`
and timestamps. -/
def choose_tlb (s : VM) : VM × Option Nat :=
  if s.tlbalg = 0 then
    ({ s with rrt := (s.rrt + 1) % s.tlb },
     some (((s.rrt + 1) % s.tlb + s.tlb - 1) % s.tlb))
  else
    (s, minindex s.tlbtime s.tlb)

/-- The C `addtlb`: choose a victim slot via `choose_tlb` and overwrite
its frame, page and timestamp.  When `choose_tlb` yields no index (the C
`minindex` returning `-1`, reachable only once every timestamp is at least
`INT_MAX`) the C code writes at index `-1`, which is undefined behavior;
the model leaves the state unchanged in that case. -/
def addtlb (s : VM) (m pte : Nat) : VM :=
  match choose_tlb s with
  | (s1, some index) =>
      { s1 with ptlb := upd s1.ptlb index m,
                vtlb := upd s1.vtlb index pte,
                tlbtime := upd s1.tlbtime index s1.timestamp }
  | (s1, none) => s1

/-- The C `flushtlb`: if some TLB slot already stores frame `m`, overwrite
that slot's virtual page in place (its timestamp is left unchanged);
otherwise fall through to `addtlb`. -/
def flushtlb (s : VM) (m pte : Nat) : VM :=
  match findFrom (fun i => s.ptlb i == m) 0 s.tlb with
  | some i => { s with vtlb := upd s.vtlb i pte }
  | none => addtlb s m pte

/-- The C `real_address`: translates a virtual word address, mutating the
state, and returns the physical word index (`make_address` divided by the
4-byte word size).  Mirrors the three paths of the C code: TLB hit,
TLB miss with page-table hit, and page fault with eviction.  As in
`addtlb`, a `none` victim from `choose_page` corresponds to C undefined
behavior (write at index `-1`) and is modelled as leaving the arrays
unchanged. -/
def real_address (s0 : VM) (address : Nat) (d : Bool) : VM × Nat :=
  let s := { s0 with timestamp := s0.timestamp + 1 }
  let pte := address / s.pagesize
  let add := address % s.pagesize
  match lookup_in_tlb_and_mark s pte with
  | (s1, some m) => (mark s1 m d, m * s.pagesize + add)
  | (s1, none) =>
    let s2 := { s1 with tc := s1.tc + 1 }
    match lookup_in_mem s2 pte with
    | some m => (addtlb (mark s2 m d) m pte, m * s.pagesize + add)
    | none =>
      let s3 := { s2 with pc := s2.pc + 1 }
      match choose_page s3 with
      | (s4, none) => (s4, 0)
      | (s4, some m) =>
        let s5 := if s4.dirty m then
            { s4 with dc := s4.dc + 1,
                      disk := copyWords s4.disk (s4.pvirt m * s4.pagesize)
                                        s4.mem (m * s4.pagesize) s4.pagesize }
          else s4
        let s6 := { s5 with pvirt := upd s5.pvirt m pte,
                            ptime := upd s5.ptime m s5.timestamp,
                            dirty := upd s5.dirty m false }
        let s7 := { s6 with mem := copyWords s6.mem (m * s6.pagesize)
                                     s6.disk (s6.pvirt m * s6.pagesize) s6.pagesize }
        let s8 := mark (flushtlb s7 m pte) m d
        (s8, m * s.pagesize + add)

/-- The C `read_address`. -/
def read_address (s : VM) (address : Nat) : VM × Nat :=
  real_address s address false

/-- The C `write_address`: resolve with the dirty flag set and store one
word at the resolved physical index. -/
def write_address (s : VM) (address : Nat) (value : Int) : VM :=
  let r := real_address s address true
  { r.1 with mem := upd r.1.mem r.2 value }

/-- The C `readInt`: the translated state together with the word read. -/
def readInt (s : VM) (address : Nat) : VM × Int :=
  let r := read_address s address
  (r.1, r.1.mem r.2)

/-- The C `writeInt`. -/
def writeInt (s : VM) (address : Nat) (value : Int) : VM :=
  write_address s address value

/-- One word-level access: a read or a write of one word. -/
inductive Access where
  | read (address : Nat)
  | write (address : Nat) (value : Int)
deriving DecidableEq

/-- Address of an access. -/
def Access.addr : Access → Nat
  | .read a => a
  | .write a _ => a

/-- State transition of one access. -/
def step (s : VM) : Access → VM
  | .read a => (readInt s a).1
  | .write a v => writeInt s a v

/-- Execution of a list of accesses, left to right. -/
def run (s : VM) : List Access → VM
  | [] => s
  | acc :: l => run (step s acc) l

theorem run_append (s : VM) (l1 l2 : List Access) :
    run s (l1 ++ l2) = run (run s l1) l2 := by
  induction l1 generalizing s with
  | nil => rfl
  | cons a l ih => simp [run, ih]

theorem upd_upd_same {α : Type} (f : Nat → α) (i : Nat) (v w : α) :
    upd (upd f i v) i w = upd f i w := by
  funext j
  by_cases h : j = i <;> simp [upd, h]

theorem tlbScan_eq_some {s : VM} {pte i : Nat} (h : tlbScan s pte = some i) :
    i < s.tlb ∧ s.vtlb i = pte ∧ ∀ k, k < i → s.vtlb k ≠ pte := by
  obtain ⟨h1, h2, h3, h4⟩ := findFrom_eq_some h
  refine ⟨by omega, by simpa using h3, ?_⟩
  intro k hk
  have := h4 k (Nat.zero_le k) hk
  simpa using this

theorem tlbScan_eq_none {s : VM} {pte : Nat} (h : tlbScan s pte = none) :
    ∀ k, k < s.tlb → s.vtlb k ≠ pte := by
  intro k hk
  have := findFrom_eq_none h k (Nat.zero_le k) (by omega)
  simpa using this

theorem tlbScan_exists {s : VM} {pte k : Nat} (hk : k < s.tlb) (hv : s.vtlb k = pte) :
    ∃ i, tlbScan s pte = some i :=
  findFrom_exists_of_mem (Nat.zero_le k) (by omega) (by simpa using hv)

theorem lookup_in_mem_eq_some {s : VM} {pte m : Nat} (h : lookup_in_mem s pte = some m) :
    m < s.ppage ∧ s.pvirt m = pte ∧ ∀ k, k < m → s.pvirt k ≠ pte := by
  obtain ⟨h1, h2, h3, h4⟩ := findFrom_eq_some h
  refine ⟨by omega, by simpa using h3, ?_⟩
  intro k hk
  have := h4 k (Nat.zero_le k) hk
  simpa using this

theorem lookup_in_mem_eq_none {s : VM} {pte : Nat} (h : lookup_in_mem s pte = none) :
    ∀ k, k < s.ppage → s.pvirt k ≠ pte := by
  intro k hk
  have := findFrom_eq_none h k (Nat.zero_le k) (by omega)
  simpa using this

theorem lookup_in_mem_exists {s : VM} {pte k : Nat} (hk : k < s.ppage)
    (hv : s.pvirt k = pte) : ∃ m, lookup_in_mem s pte = some m :=
  findFrom_exists_of_mem (Nat.zero_le k) (by omega) (by simpa using hv)

theorem choose_tlb_spec (s : VM) :
    ∃ r, ((∃ v, choose_tlb s = ({ s with rrt := r }, some v) ∧ (0 < s.tlb → v < s.tlb))
      ∨ choose_tlb s = ({ s with rrt := r }, none)) := by
  unfold choose_tlb
  by_cases h : s.tlbalg = 0
  · refine ⟨(s.rrt + 1) % s.tlb,
      Or.inl ⟨((s.rrt + 1) % s.tlb + s.tlb - 1) % s.tlb, by simp [h], ?_⟩⟩
    intro ht
    exact Nat.mod_lt _ ht
  · cases hm : minindex s.tlbtime s.tlb with
    | some v => exact ⟨s.rrt, Or.inl ⟨v, by simp [h, hm], fun _ => minindex_lt hm⟩⟩
    | none => exact ⟨s.rrt, Or.inr (by simp [h, hm])⟩

theorem choose_page_spec (s : VM) :
    ∃ r, ((∃ v, choose_page s = ({ s with rrp := r }, some v) ∧ (0 < s.ppage → v < s.ppage))
      ∨ choose_page s = ({ s with rrp := r }, none)) := by
  unfold choose_page
  by_cases h : s.palg = 0
  · refine ⟨(s.rrp + 1) % s.ppage,
      Or.inl ⟨((s.rrp + 1) % s.ppage + s.ppage - 1) % s.ppage, by simp [h], ?_⟩⟩
    intro ht
    exact Nat.mod_lt _ ht
  · cases hm : minindex s.ptime s.ppage with
    | some v => exact ⟨s.rrp, Or.inl ⟨v, by simp [h, hm], fun _ => minindex_lt hm⟩⟩
    | none => exact ⟨s.rrp, Or.inr (by simp [h, hm])⟩

/-- Arithmetic of the round-robin victim formula: advancing the cursor
from `c` and stepping back one slot modulo `n` yields `c % n`. -/
theorem rr_victim_formula (c n : Nat) (hn : 0 < n) :
    ((c + 1) % n + n - 1) % n = c % n := by
  have h1 : (c + 1) % n + n - 1 = (c + 1) % n + (n - 1) := by
    have := Nat.mod_lt (c + 1) hn
    omega
  rw [h1, Nat.mod_add_mod]
  have h2 : c + 1 + (n - 1) = c + n := by omega
  rw [h2, Nat.add_mod_right]

/-- State produced by the page-fault branch of `real_address`, starting
from the pre-translation state `s`, with round-robin cursor result `r`,
victim frame `m` and incoming page `pte`. -/
def faultState (s : VM) (r m pte : Nat) (d : Bool) : VM :=
  let s4 : VM := { s with timestamp := s.timestamp + 1, tc := s.tc + 1,
                          pc := s.pc + 1, rrp := r }
  let s5 := if s4.dirty m then
      { s4 with dc := s4.dc + 1,
                disk := copyWords s4.disk (s4.pvirt m * s4.pagesize)
                          s4.mem (m * s4.pagesize) s4.pagesize }
    else s4
  let s6 := { s5 with pvirt := upd s5.pvirt m pte,
                      ptime := upd s5.ptime m s5.timestamp,
                      dirty := upd s5.dirty m false }
  let s7 := { s6 with mem := copyWords s6.mem (m * s6.pagesize)
                               s6.disk (s6.pvirt m * s6.pagesize) s6.pagesize }
  mark (flushtlb s7 m pte) m d

theorem addtlb_pagesize (s : VM) (m p : Nat) : (addtlb s m p).pagesize = s.pagesize := by
  unfold addtlb
  obtain ⟨r, h⟩ := choose_tlb_spec s
  rcases h with ⟨v, heq, _⟩ | heq <;> rw [heq]

theorem flushtlb_pagesize (s : VM) (m p : Nat) : (flushtlb s m p).pagesize = s.pagesize := by
  unfold flushtlb
  cases h : findFrom (fun i => s.ptlb i == m) 0 s.tlb with
  | some i => rfl
  | none => exact addtlb_pagesize s m p

theorem mark_pagesize (s : VM) (p : Nat) (d : Bool) : (mark s p d).pagesize = s.pagesize :=
  rfl

/-- Path characterization of `real_address`: a translation request is a
TLB hit, a TLB miss with page-table hit, or a page fault (possibly with
the degenerate `minindex = none` victim, which only the LRU policy with
saturated timestamps can produce). -/
theorem real_address_cases (s : VM) (a : Nat) (d : Bool) :
    (∃ i, i < s.tlb ∧ tlbScan s (a / s.pagesize) = some i ∧
      s.vtlb i = a / s.pagesize ∧
      real_address s a d =
        (mark { s with timestamp := s.timestamp + 1,
                       tlbtime := upd s.tlbtime i (s.timestamp + 1) } (s.ptlb i) d,
         s.ptlb i * s.pagesize + a % s.pagesize))
    ∨ (tlbScan s (a / s.pagesize) = none ∧
       ∃ m, m < s.ppage ∧ lookup_in_mem s (a / s.pagesize) = some m ∧
        s.pvirt m = a / s.pagesize ∧
        real_address s a d =
          (addtlb (mark { s with timestamp := s.timestamp + 1, tc := s.tc + 1 } m d)
             m (a / s.pagesize),
           m * s.pagesize + a % s.pagesize))
    ∨ (tlbScan s (a / s.pagesize) = none ∧ lookup_in_mem s (a / s.pagesize) = none ∧
       ((∃ r m, (0 < s.ppage → m < s.ppage) ∧
          choose_page { s with timestamp := s.timestamp + 1, tc := s.tc + 1,
                               pc := s.pc + 1 }
            = ({ s with timestamp := s.timestamp + 1, tc := s.tc + 1, pc := s.pc + 1,
                        rrp := r }, some m) ∧
          real_address s a d =
            (faultState s r m (a / s.pagesize) d, m * s.pagesize + a % s.pagesize))
        ∨ (∃ r,
            choose_page { s with timestamp := s.timestamp + 1, tc := s.tc + 1,
                                 pc := s.pc + 1 }
              = ({ s with timestamp := s.timestamp + 1, tc := s.tc + 1, pc := s.pc + 1,
                          rrp := r }, none) ∧
            real_address s a d =
            ({ s with timestamp := s.timestamp + 1, tc := s.tc + 1, pc := s.pc + 1,
                      rrp := r }, 0)))) := by
  cases htlb : tlbScan s (a / s.pagesize) with
  | some i =>
    obtain ⟨hi, hv, _⟩ := tlbScan_eq_some htlb
    refine Or.inl ⟨i, hi, rfl, hv, ?_⟩
    have h1 : lookup_in_tlb_and_mark { s with timestamp := s.timestamp + 1 }
        (a / s.pagesize)
        = ({ s with timestamp := s.timestamp + 1,
                    tlbtime := upd s.tlbtime i (s.timestamp + 1) }, some (s.ptlb i)) := by
      unfold lookup_in_tlb_and_mark
      have h2 : tlbScan { s with timestamp := s.timestamp + 1 } (a / s.pagesize)
          = some i := htlb
      rw [h2]
    simp only [real_address]
    rw [h1]
  | none =>
    have h1 : lookup_in_tlb_and_mark { s with timestamp := s.timestamp + 1 }
        (a / s.pagesize) = ({ s with timestamp := s.timestamp + 1 }, none) := by
      unfold lookup_in_tlb_and_mark
      have h2 : tlbScan { s with timestamp := s.timestamp + 1 } (a / s.pagesize)
          = none := htlb
      rw [h2]
    cases hmem : lookup_in_mem s (a / s.pagesize) with
    | some m =>
      obtain ⟨hm, hv, _⟩ := lookup_in_mem_eq_some hmem
      refine Or.inr (Or.inl ⟨rfl, m, hm, rfl, hv, ?_⟩)
      have h3 : lookup_in_mem { s with timestamp := s.timestamp + 1, tc := s.tc + 1 }
          (a / s.pagesize) = some m := hmem
      simp only [real_address]
      rw [h1]
      dsimp only
      rw [h3]
    | none =>
      refine Or.inr (Or.inr ⟨rfl, rfl, ?_⟩)
      have h3 : lookup_in_mem { s with timestamp := s.timestamp + 1, tc := s.tc + 1 }
          (a / s.pagesize) = none := hmem
      obtain ⟨r, hch⟩ := choose_page_spec
        { s with timestamp := s.timestamp + 1, tc := s.tc + 1, pc := s.pc + 1 }
      rcases hch with ⟨v, heq, hlt⟩ | heq
      · refine Or.inl ⟨r, v, hlt, heq, ?_⟩
        simp only [real_address]
        rw [h1]
        dsimp only
        rw [h3]
        dsimp only
        rw [heq]
        rfl
      · refine Or.inr ⟨r, heq, ?_⟩
        simp only [real_address]
        rw [h1]
        dsimp only
        rw [h3]
        dsimp only
        rw [heq]

/-- `addtlb` only touches the TLB arrays and the TLB round-robin cursor. -/
theorem addtlb_shape (s : VM) (m p : Nat) :
    ∃ pt vt tt r, addtlb s m p =
      { s with ptlb := pt, vtlb := vt, tlbtime := tt, rrt := r } := by
  unfold addtlb
  obtain ⟨r, hc⟩ := choose_tlb_spec s
  rcases hc with ⟨v, heq, _⟩ | heq <;> rw [heq]
  · exact ⟨_, _, _, _, rfl⟩
  · exact ⟨s.ptlb, s.vtlb, s.tlbtime, r, rfl⟩

/-- `flushtlb` only touches the TLB arrays and the TLB round-robin cursor. -/
theorem flushtlb_shape (s : VM) (m p : Nat) :
    ∃ pt vt tt r, flushtlb s m p =
      { s with ptlb := pt, vtlb := vt, tlbtime := tt, rrt := r } := by
  unfold flushtlb
  cases h : findFrom (fun i => s.ptlb i == m) 0 s.tlb with
  | some i => exact ⟨s.ptlb, upd s.vtlb i p, s.tlbtime, s.rrt, rfl⟩
  | none => exact addtlb_shape s m p

/-- Flattened form of the fault branch: all non-TLB mutations expressed as
one simultaneous update of the pre-translation state. -/
theorem faultState_eq (s : VM) (r m pte : Nat) (d : Bool) :
    faultState s r m pte d =
      mark (flushtlb
        { s with timestamp := s.timestamp + 1, tc := s.tc + 1, pc := s.pc + 1, rrp := r,
                 dc := s.dc + (if s.dirty m then 1 else 0),
                 disk := (if s.dirty m then
                     copyWords s.disk (s.pvirt m * s.pagesize) s.mem (m * s.pagesize)
                       s.pagesize
                   else s.disk),
                 pvirt := upd s.pvirt m pte,
                 ptime := upd s.ptime m (s.timestamp + 1),
                 dirty := upd s.dirty m false,
                 mem := copyWords s.mem (m * s.pagesize)
                          (if s.dirty m then
                             copyWords s.disk (s.pvirt m * s.pagesize) s.mem
                               (m * s.pagesize) s.pagesize
                           else s.disk)
                          (pte * s.pagesize) s.pagesize } m pte) m d := by
  unfold faultState
  by_cases hd : s.dirty m <;> simp [hd, upd_same]

theorem mf_pvirt (t : VM) (m pte : Nat) (d : Bool) :
    (mark (flushtlb t m pte) m d).pvirt = t.pvirt := by
  obtain ⟨pt, vt, tt, rr, hf⟩ := flushtlb_shape t m pte
  rw [hf]
  rfl

theorem mf_mem (t : VM) (m pte : Nat) (d : Bool) :
    (mark (flushtlb t m pte) m d).mem = t.mem := by
  obtain ⟨pt, vt, tt, rr, hf⟩ := flushtlb_shape t m pte
  rw [hf]
  rfl

theorem mf_disk (t : VM) (m pte : Nat) (d : Bool) :
    (mark (flushtlb t m pte) m d).disk = t.disk := by
  obtain ⟨pt, vt, tt, rr, hf⟩ := flushtlb_shape t m pte
  rw [hf]
  rfl

theorem mf_pc (t : VM) (m pte : Nat) (d : Bool) :
    (mark (flushtlb t m pte) m d).pc = t.pc := by
  obtain ⟨pt, vt, tt, rr, hf⟩ := flushtlb_shape t m pte
  rw [hf]
  rfl

theorem mf_tc (t : VM) (m pte : Nat) (d : Bool) :
    (mark (flushtlb t m pte) m d).tc = t.tc := by
  obtain ⟨pt, vt, tt, rr, hf⟩ := flushtlb_shape t m pte
  rw [hf]
  rfl

theorem mf_dc (t : VM) (m pte : Nat) (d : Bool) :
    (mark (flushtlb t m pte) m d).dc = t.dc := by
  obtain ⟨pt, vt, tt, rr, hf⟩ := flushtlb_shape t m pte
  rw [hf]
  rfl

theorem mf_timestamp (t : VM) (m pte : Nat) (d : Bool) :
    (mark (flushtlb t m pte) m d).timestamp = t.timestamp := by
  obtain ⟨pt, vt, tt, rr, hf⟩ := flushtlb_shape t m pte
  rw [hf]
  rfl

theorem mf_rrp (t : VM) (m pte : Nat) (d : Bool) :
    (mark (flushtlb t m pte) m d).rrp = t.rrp := by
  obtain ⟨pt, vt, tt, rr, hf⟩ := flushtlb_shape t m pte
  rw [hf]
  rfl

theorem mf_pagesize (t : VM) (m pte : Nat) (d : Bool) :
    (mark (flushtlb t m pte) m d).pagesize = t.pagesize := by
  obtain ⟨pt, vt, tt, rr, hf⟩ := flushtlb_shape t m pte
  rw [hf]
  rfl

theorem mf_vpage (t : VM) (m pte : Nat) (d : Bool) :
    (mark (flushtlb t m pte) m d).vpage = t.vpage := by
  obtain ⟨pt, vt, tt, rr, hf⟩ := flushtlb_shape t m pte
  rw [hf]
  rfl

theorem mf_ppage (t : VM) (m pte : Nat) (d : Bool) :
    (mark (flushtlb t m pte) m d).ppage = t.ppage := by
  obtain ⟨pt, vt, tt, rr, hf⟩ := flushtlb_shape t m pte
  rw [hf]
  rfl

theorem mf_palg (t : VM) (m pte : Nat) (d : Bool) :
    (mark (flushtlb t m pte) m d).palg = t.palg := by
  obtain ⟨pt, vt, tt, rr, hf⟩ := flushtlb_shape t m pte
  rw [hf]
  rfl

theorem mf_tlb (t : VM) (m pte : Nat) (d : Bool) :
    (mark (flushtlb t m pte) m d).tlb = t.tlb := by
  obtain ⟨pt, vt, tt, rr, hf⟩ := flushtlb_shape t m pte
  rw [hf]
  rfl

theorem mf_tlbalg (t : VM) (m pte : Nat) (d : Bool) :
    (mark (flushtlb t m pte) m d).tlbalg = t.tlbalg := by
  obtain ⟨pt, vt, tt, rr, hf⟩ := flushtlb_shape t m pte
  rw [hf]
  rfl

theorem mf_dirty (t : VM) (m pte : Nat) (d : Bool) :
    (mark (flushtlb t m pte) m d).dirty
      = (if d then upd t.dirty m true else t.dirty) := by
  obtain ⟨pt, vt, tt, rr, hf⟩ := flushtlb_shape t m pte
  rw [hf]
  rfl

theorem mf_ptime (t : VM) (m pte : Nat) (d : Bool) :
    (mark (flushtlb t m pte) m d).ptime = upd t.ptime m t.timestamp := by
  obtain ⟨pt, vt, tt, rr, hf⟩ := flushtlb_shape t m pte
  rw [hf]
  rfl

theorem faultState_pc (s : VM) (r m pte : Nat) (d : Bool) :
    (faultState s r m pte d).pc = s.pc + 1 := by
  rw [faultState_eq, mf_pc]

theorem faultState_tc (s : VM) (r m pte : Nat) (d : Bool) :
    (faultState s r m pte d).tc = s.tc + 1 := by
  rw [faultState_eq, mf_tc]

theorem faultState_dc (s : VM) (r m pte : Nat) (d : Bool) :
    (faultState s r m pte d).dc = s.dc + (if s.dirty m then 1 else 0) := by
  rw [faultState_eq, mf_dc]

theorem faultState_timestamp (s : VM) (r m pte : Nat) (d : Bool) :
    (faultState s r m pte d).timestamp = s.timestamp + 1 := by
  rw [faultState_eq, mf_timestamp]

theorem faultState_rrp (s : VM) (r m pte : Nat) (d : Bool) :
    (faultState s r m pte d).rrp = r := by
  rw [faultState_eq, mf_rrp]

theorem faultState_pvirt (s : VM) (r m pte : Nat) (d : Bool) :
    (faultState s r m pte d).pvirt = upd s.pvirt m pte := by
  rw [faultState_eq, mf_pvirt]

theorem faultState_dirty (s : VM) (r m pte : Nat) (d : Bool) :
    (faultState s r m pte d).dirty = upd s.dirty m d := by
  rw [faultState_eq, mf_dirty]
  cases d
  · rfl
  · exact upd_upd_same s.dirty m false true

theorem faultState_ptime (s : VM) (r m pte : Nat) (d : Bool) :
    (faultState s r m pte d).ptime = upd s.ptime m (s.timestamp + 1) := by
  rw [faultState_eq, mf_ptime]
  exact upd_upd_same s.ptime m (s.timestamp + 1) (s.timestamp + 1)

theorem faultState_disk (s : VM) (r m pte : Nat) (d : Bool) :
    (faultState s r m pte d).disk
      = (if s.dirty m then
           copyWords s.disk (s.pvirt m * s.pagesize) s.mem (m * s.pagesize) s.pagesize
         else s.disk) := by
  rw [faultState_eq, mf_disk]

theorem faultState_mem (s : VM) (r m pte : Nat) (d : Bool) :
    (faultState s r m pte d).mem
      = copyWords s.mem (m * s.pagesize)
          (if s.dirty m then
             copyWords s.disk (s.pvirt m * s.pagesize) s.mem (m * s.pagesize) s.pagesize
           else s.disk)
          (pte * s.pagesize) s.pagesize := by
  rw [faultState_eq, mf_mem]

theorem faultState_config (s : VM) (r m pte : Nat) (d : Bool) :
    (faultState s r m pte d).pagesize = s.pagesize ∧
    (faultState s r m pte d).vpage = s.vpage ∧
    (faultState s r m pte d).ppage = s.ppage ∧
    (faultState s r m pte d).palg = s.palg ∧
    (faultState s r m pte d).tlb = s.tlb ∧
    (faultState s r m pte d).tlbalg = s.tlbalg := by
  rw [faultState_eq]
  rw [mf_pagesize, mf_vpage, mf_ppage, mf_palg, mf_tlb, mf_tlbalg]
  exact ⟨rfl, rfl, rfl, rfl, rfl, rfl⟩

theorem step_read (s : VM) (a : Nat) : step s (.read a) = (real_address s a false).1 :=
  rfl

theorem step_write (s : VM) (a : Nat) (v : Int) :
    step s (.write a v)
      = { (real_address s a true).1 with
            mem := upd (real_address s a true).1.mem (real_address s a true).2 v } :=
  rfl

/-- C2: end-to-end example.  After `createVM 4 2 2 1` with round-robin
replacement for both structures, the trace `writeInt 0 7; writeInt 2 9;
readInt 4; readInt 0` behaves exactly as the spec describes: the first
write is a TLB hit (no counter changes), the second a TLB miss with
page-table hit (tlbMisses = 1), the two reads fault with round-robin
victims frame 0 then frame 1, each dirty eviction persisting the page to
its disk slot (disk word 0 becomes 7, disk word 2 becomes 9), the final
read returns 7, and the final counters are pageFaults = 2, tlbMisses = 3,
diskWrites = 2. -/
theorem end_to_end_example :
    (run (createVM 4 2 2 1 0 0) [.write 0 7]).pc = 0 ∧
    (run (createVM 4 2 2 1 0 0) [.write 0 7]).tc = 0 ∧
    (run (createVM 4 2 2 1 0 0) [.write 0 7]).dc = 0 ∧
    (run (createVM 4 2 2 1 0 0) [.write 0 7]).dirty 0 = true ∧
    (run (createVM 4 2 2 1 0 0) [.write 0 7, .write 2 9]).pc = 0 ∧
    (run (createVM 4 2 2 1 0 0) [.write 0 7, .write 2 9]).tc = 1 ∧
    (run (createVM 4 2 2 1 0 0) [.write 0 7, .write 2 9]).dc = 0 ∧
    (run (createVM 4 2 2 1 0 0) [.write 0 7, .write 2 9]).dirty 1 = true ∧
    (run (createVM 4 2 2 1 0 0) [.write 0 7, .write 2 9, .read 4]).pc = 1 ∧
    (run (createVM 4 2 2 1 0 0) [.write 0 7, .write 2 9, .read 4]).tc = 2 ∧
    (run (createVM 4 2 2 1 0 0) [.write 0 7, .write 2 9, .read 4]).dc = 1 ∧
    (run (createVM 4 2 2 1 0 0) [.write 0 7, .write 2 9, .read 4]).pvirt 0 = 2 ∧
    (run (createVM 4 2 2 1 0 0) [.write 0 7, .write 2 9, .read 4]).disk 0 = 7 ∧
    (readInt (run (createVM 4 2 2 1 0 0) [.write 0 7, .write 2 9, .read 4]) 0).2 = 7 ∧
    (run (createVM 4 2 2 1 0 0) [.write 0 7, .write 2 9, .read 4, .read 0]).pc = 2 ∧
    (run (createVM 4 2 2 1 0 0) [.write 0 7, .write 2 9, .read 4, .read 0]).tc = 3 ∧
    (run (createVM 4 2 2 1 0 0) [.write 0 7, .write 2 9, .read 4, .read 0]).dc = 2 ∧
    (run (createVM 4 2 2 1 0 0) [.write 0 7, .write 2 9, .read 4, .read 0]).pvirt 1 = 0 ∧
    (run (createVM 4 2 2 1 0 0) [.write 0 7, .write 2 9, .read 4, .read 0]).disk 2 = 9 := by
  decide

/-- C6 (counterexample to the documented behavior): `createVM` performs
none of its documented validation.  Called with `sizePM = 4 ≥ sizeVM = 2`
and a non-power-of-two `pageSize = 3` it still returns a fully
initialized, usable handle instead of the documented NULL. -/
theorem createVM_accepts_invalid_config :
    (createVM 2 4 3 1 0 0).vpage = 2 ∧ (createVM 2 4 3 1 0 0).ppage = 4 ∧
    (createVM 2 4 3 1 0 0).pagesize = 3 ∧ (createVM 2 4 3 1 0 0).pvirt 3 = 3 ∧
    (createVM 2 4 3 1 0 0).vtlb 0 = 0 ∧ (createVM 2 4 3 1 0 0).pc = 0 := by
  decide

/-- C5 (counterexample to the documented behavior): `real_address` has no
bounds check, so an out-of-range access (address `8 = sizeVM * pageSize`
in a `createVM 4 2 2 1` instance) is silently translated: it counts a TLB
miss and a page fault, installs the nonexistent virtual page 4 into frame
0 (reading the simulated disk out of bounds in the C program), and a write
to that address lands in physical memory word 0 — no diagnostic, no
termination. -/
theorem out_of_range_access_translates :
    (readInt (createVM 4 2 2 1 0 0) 8).1.tc = 1 ∧
    (readInt (createVM 4 2 2 1 0 0) 8).1.pc = 1 ∧
    (readInt (createVM 4 2 2 1 0 0) 8).1.pvirt 0 = 4 ∧
    (writeInt (createVM 4 2 2 1 0 0) 8 5).mem 0 = 5 := by
  decide

/-- C4 (counterexample): when `flushtlb` finds a TLB slot already holding
the given frame, it overwrites only that slot's resident page; the slot's
`lastUsed` timestamp is NOT updated, contradicting the claim that both are
overwritten.  Here slot 0 holds frame 0, the clock is 9, and after
`flushtlb _ 0 3` the slot's page is 3 but its timestamp is still 0. -/
theorem flushtlb_time_not_updated_cex :
    ({ createVM 4 2 2 1 0 0 with timestamp := 9 } : VM).ptlb 0 = 0 ∧
    ({ createVM 4 2 2 1 0 0 with timestamp := 9 } : VM).timestamp = 9 ∧
    (flushtlb { createVM 4 2 2 1 0 0 with timestamp := 9 } 0 3).vtlb 0 = 3 ∧
    (flushtlb { createVM 4 2 2 1 0 0 with timestamp := 9 } 0 3).tlbtime 0 = 0 := by
  decide

/-- C4 (amended): `flushtlb` first scans for a TLB slot whose frame equals
the given frame; if one exists at index `i` it overwrites only that slot's
resident page in place, leaving its `lastUsed` timestamp (and every other
field) unchanged; only when no slot points at the frame does it fall
through to `addtlb`, which picks a victim via the TLB replacement policy
and overwrites that slot's frame, resident page and timestamp. -/
theorem flushtlb_install_rule (s : VM) (m pte : Nat) :
    (∀ i, findFrom (fun j => s.ptlb j == m) 0 s.tlb = some i →
       flushtlb s m pte = { s with vtlb := upd s.vtlb i pte })
    ∧ (findFrom (fun j => s.ptlb j == m) 0 s.tlb = none →
       flushtlb s m pte = addtlb s m pte)
    ∧ (∀ t i, choose_tlb s = (t, some i) →
       addtlb s m pte = { t with ptlb := upd t.ptlb i m,
                                 vtlb := upd t.vtlb i pte,
                                 tlbtime := upd t.tlbtime i t.timestamp }) := by
  refine ⟨?_, ?_, ?_⟩
  · intro i h
    unfold flushtlb
    rw [h]
  · intro h
    unfold flushtlb
    rw [h]
  · intro t i h
    unfold addtlb
    rw [h]

/-- Witness for the amended C4 rule at a concrete state: slot 0 holds
frame 0, so installing page 3 for frame 0 rewrites slot 0 in place. -/
theorem flushtlb_install_rule_witness :
    flushtlb { createVM 4 2 2 1 0 0 with timestamp := 9 } 0 3
      = { ({ createVM 4 2 2 1 0 0 with timestamp := 9 } : VM) with
            vtlb := upd ({ createVM 4 2 2 1 0 0 with timestamp := 9 } : VM).vtlb 0 3 } :=
  (flushtlb_install_rule { createVM 4 2 2 1 0 0 with timestamp := 9 } 0 3).1 0 (by decide)

/-- Iterated victim selection of the page-replacement policy. -/
def choosePageIter (s : VM) : Nat → VM
  | 0 => s
  | k + 1 => (choose_page (choosePageIter s k)).1

/-- Victim returned by the `(k+1)`-st call to `choose_page` (counting the
first call as `k = 0`). -/
def nthPageVictim (s : VM) (k : Nat) : Option Nat :=
  (choose_page (choosePageIter s k)).2

theorem choose_page_rr (s : VM) (h0 : s.palg = 0) :
    choose_page s = ({ s with rrp := (s.rrp + 1) % s.ppage },
      some (((s.rrp + 1) % s.ppage + s.ppage - 1) % s.ppage)) := by
  unfold choose_page
  rw [if_pos h0]

theorem choosePageIter_inv (s : VM) (h0 : s.palg = 0) (hr : s.rrp = 0) :
    ∀ k, (choosePageIter s k).rrp = k % s.ppage ∧ (choosePageIter s k).palg = 0 ∧
      (choosePageIter s k).ppage = s.ppage := by
  intro k
  induction k with
  | zero => exact ⟨by rw [choosePageIter, hr, Nat.zero_mod], h0, rfl⟩
  | succ k ih =>
    obtain ⟨h1, h2, h3⟩ := ih
    unfold choosePageIter
    rw [choose_page_rr _ h2]
    refine ⟨?_, h2, h3⟩
    show ((choosePageIter s k).rrp + 1) % (choosePageIter s k).ppage = (k + 1) % s.ppage
    rw [h1, h3, Nat.mod_add_mod]

/-- C7: round-robin determinism.  With the round-robin page policy and the
cursor initialized to 0, the `(k+1)`-st victim selection returns `k % n`
(the pre-advance cursor value), cycling `0, 1, ..., n-1, 0, ...` regardless
of the access pattern; moreover any translation request that misses both
the TLB and the page table under the round-robin policy installs its page
in frame `rrp % ppage` and advances the cursor by one, so successive
faults evict frames in exactly this cyclic order independent of recency. -/
theorem round_robin_determinism (s : VM) (h0 : s.palg = 0) (hn : 0 < s.ppage)
    (hr : s.rrp = 0) :
    (∀ k, nthPageVictim s k = some (k % s.ppage)) ∧
    (∀ (t : VM) (a : Nat) (d : Bool), t.palg = 0 → 0 < t.ppage →
      tlbScan t (a / t.pagesize) = none → lookup_in_mem t (a / t.pagesize) = none →
      (real_address t a d).1.pvirt (t.rrp % t.ppage) = a / t.pagesize ∧
      (real_address t a d).1.rrp = (t.rrp + 1) % t.ppage) := by
  constructor
  · intro k
    obtain ⟨h1, h2, h3⟩ := choosePageIter_inv s h0 hr k
    unfold nthPageVictim
    rw [choose_page_rr _ h2]
    show some ((((choosePageIter s k).rrp + 1) % (choosePageIter s k).ppage
        + (choosePageIter s k).ppage - 1) % (choosePageIter s k).ppage)
      = some (k % s.ppage)
    rw [h1, h3, Nat.mod_add_mod, rr_victim_formula k s.ppage hn]
  · intro t a d h0t hnt hscan hmem
    rcases real_address_cases t a d with
      ⟨i, _, hs, _, _⟩ | ⟨_, m, _, hm, _, _⟩ | ⟨_, _, hcase⟩
    · rw [hscan] at hs
      cases hs
    · rw [hmem] at hm
      cases hm
    · have hLpalg : ({ t with
            timestamp := t.timestamp + 1,
            tc := t.tc + 1,
            pc := t.pc + 1 } : VM).palg = 0 := h0t
      rcases hcase with ⟨r, m, _, heq, hreal⟩ | ⟨r, hcp, _⟩
      · rw [choose_page_rr _ hLpalg] at heq
        have hm2 : (((t.rrp + 1) % t.ppage + t.ppage - 1) % t.ppage) = m := by
          have := congrArg Prod.snd heq
          simpa using this
        have hr2 : ((t.rrp + 1) % t.ppage) = r := by
          have := congrArg (fun p => (Prod.fst p).rrp) heq
          simpa using this
        have hmval : m = t.rrp % t.ppage := by
          rw [← hm2, rr_victim_formula t.rrp t.ppage hnt]
        rw [hreal]
        constructor
        · rw [faultState_pvirt, hmval, upd_same]
        · rw [faultState_rrp, ← hr2]
      · rw [choose_page_rr _ hLpalg] at hcp
        have := congrArg Prod.snd hcp
        simp at this

/-- Witness for C7: in a fresh round-robin instance with two frames, the
sixth victim selection returns frame `5 % 2 = 1`. -/
theorem round_robin_determinism_witness :
    nthPageVictim (createVM 4 2 2 1 0 0) 5 = some (5 % 2) :=
  (round_robin_determinism (createVM 4 2 2 1 0 0) (by decide) (by decide)
    (by decide)).1 5

/-- C8: LRU victim selection.  Under the LRU page policy (`palg = 1`),
`choose_page` leaves the state unchanged and returns the frame whose
`ptime` (lastUsed) is the minimum of the array, with ties broken by the
lowest index (first match of the ascending scan); consequently a request
that misses both the TLB and the page table evicts exactly that frame.
The hypothesis `ptime i < 2147483647` reflects the sentinel `INT_MAX`
used by the C `minindex` and holds in every state a program can reach
without overflowing the C `int` clock. -/
theorem lru_min_victim (s : VM) (h1 : s.palg = 1) (hn : 0 < s.ppage)
    (hb : ∀ i, i < s.ppage → s.ptime i < 2147483647) :
    ∃ j, choose_page s = (s, some j) ∧ j < s.ppage ∧
      (∀ i, i < s.ppage → s.ptime j ≤ s.ptime i) ∧
      (∀ i, i < j → s.ptime j < s.ptime i) ∧
      (∀ (a : Nat) (d : Bool),
        tlbScan s (a / s.pagesize) = none → lookup_in_mem s (a / s.pagesize) = none →
        (real_address s a d).1.pvirt j = a / s.pagesize) := by
  have hcp : choose_page s = (s, minindex s.ptime s.ppage) := by
    unfold choose_page
    rw [if_neg (by omega)]
  obtain ⟨j, hj1, hj2, hj3, _, hj5, hj6⟩ :=
    @minindexAux_min s.ptime s.ppage 0 2147483647 none ⟨0, Nat.le_refl 0, by omega, hb 0 hn⟩
  have hmin : minindex s.ptime s.ppage = some j := hj1
  refine ⟨j, by rw [hcp, hmin], by omega, ?_, ?_, ?_⟩
  · intro i hi
    exact hj5 i (Nat.zero_le i) (by omega)
  · intro i hi
    exact hj6 i (Nat.zero_le i) hi
  · intro a d hscan hmem
    rcases real_address_cases s a d with
      ⟨i, _, hs, _, _⟩ | ⟨_, m, _, hm, _, _⟩ | ⟨_, _, hcase⟩
    · rw [hscan] at hs
      cases hs
    · rw [hmem] at hm
      cases hm
    · have hLcp : choose_page ({ s with
            timestamp := s.timestamp + 1,
            tc := s.tc + 1,
            pc := s.pc + 1 } : VM)
          = (({ s with
                timestamp := s.timestamp + 1,
                tc := s.tc + 1,
                pc := s.pc + 1 } : VM), some j) := by
        unfold choose_page
        rw [if_neg (by show ¬ s.palg = 0; omega)]
        show Prod.mk _ (minindex s.ptime s.ppage) = _
        rw [hmin]
      rcases hcase with ⟨r, m, _, heq, hreal⟩ | ⟨r, hcp2, _⟩
      · rw [hLcp] at heq
        have hm2 : j = m := by
          have := congrArg Prod.snd heq
          simpa using this
        rw [hreal, faultState_pvirt, ← hm2, upd_same]
      · rw [hLcp] at hcp2
        have := congrArg Prod.snd hcp2
        simp at this

/-- Witness for C8: with three frames whose lastUsed stamps are 7, 6, 5,
the LRU victim is frame 2, and ties are impossible here; the theorem
applies at this concrete state. -/
theorem lru_min_victim_witness :
    ∃ j, choose_page { createVM 4 3 2 2 1 1 with ptime := fun i => 7 - i }
        = ({ createVM 4 3 2 2 1 1 with ptime := fun i => 7 - i }, some j) ∧
      j < ({ createVM 4 3 2 2 1 1 with ptime := fun i => 7 - i } : VM).ppage ∧
      (∀ i, i < ({ createVM 4 3 2 2 1 1 with ptime := fun i => 7 - i } : VM).ppage →
        ({ createVM 4 3 2 2 1 1 with ptime := fun i => 7 - i } : VM).ptime j
          ≤ ({ createVM 4 3 2 2 1 1 with ptime := fun i => 7 - i } : VM).ptime i) ∧
      (∀ i, i < j →
        ({ createVM 4 3 2 2 1 1 with ptime := fun i => 7 - i } : VM).ptime j
          < ({ createVM 4 3 2 2 1 1 with ptime := fun i => 7 - i } : VM).ptime i) ∧
      (∀ (a : Nat) (d : Bool),
        tlbScan { createVM 4 3 2 2 1 1 with ptime := fun i => 7 - i }
            (a / ({ createVM 4 3 2 2 1 1 with ptime := fun i => 7 - i } : VM).pagesize)
          = none →
        lookup_in_mem { createVM 4 3 2 2 1 1 with ptime := fun i => 7 - i }
            (a / ({ createVM 4 3 2 2 1 1 with ptime := fun i => 7 - i } : VM).pagesize)
          = none →
        (real_address { createVM 4 3 2 2 1 1 with ptime := fun i => 7 - i } a d).1.pvirt j
          = a / ({ createVM 4 3 2 2 1 1 with ptime := fun i => 7 - i } : VM).pagesize) :=
  lru_min_victim { createVM 4 3 2 2 1 1 with ptime := fun i => 7 - i } (by decide)
    (by decide) (by decide)

theorem real_address_counters (s : VM) (a : Nat) (d : Bool) :
    ((real_address s a d).1.tc = s.tc ∧ (real_address s a d).1.pc = s.pc ∧
      (real_address s a d).1.dc = s.dc)
    ∨ ((real_address s a d).1.tc = s.tc + 1 ∧ (real_address s a d).1.pc = s.pc ∧
      (real_address s a d).1.dc = s.dc)
    ∨ ((real_address s a d).1.tc = s.tc + 1 ∧ (real_address s a d).1.pc = s.pc + 1 ∧
      ((real_address s a d).1.dc = s.dc ∨ (real_address s a d).1.dc = s.dc + 1)) := by
  rcases real_address_cases s a d with
    ⟨i, _, _, _, hreal⟩ | ⟨_, m, _, _, _, hreal⟩ | ⟨_, _, hcase⟩
  · rw [hreal]
    exact Or.inl ⟨rfl, rfl, rfl⟩
  · rw [hreal]
    obtain ⟨pt, vt, tt, rr, hsh⟩ := addtlb_shape
      (mark { s with timestamp := s.timestamp + 1, tc := s.tc + 1 } m d) m
      (a / s.pagesize)
    rw [hsh]
    exact Or.inr (Or.inl ⟨rfl, rfl, rfl⟩)
  · rcases hcase with ⟨r, m, _, _, hreal⟩ | ⟨r, _, hreal⟩
    · rw [hreal]
      refine Or.inr (Or.inr ⟨faultState_tc _ _ _ _ _, faultState_pc _ _ _ _ _, ?_⟩)
      rw [faultState_dc]
      by_cases hd : s.dirty m
      · rw [if_pos hd]
        exact Or.inr rfl
      · rw [if_neg hd]
        exact Or.inl rfl
    · rw [hreal]
      exact Or.inr (Or.inr ⟨rfl, rfl, Or.inl rfl⟩)

theorem step_counters (s : VM) (acc : Access) :
    ((step s acc).tc = s.tc ∧ (step s acc).pc = s.pc ∧ (step s acc).dc = s.dc)
    ∨ ((step s acc).tc = s.tc + 1 ∧ (step s acc).pc = s.pc ∧ (step s acc).dc = s.dc)
    ∨ ((step s acc).tc = s.tc + 1 ∧ (step s acc).pc = s.pc + 1 ∧
      ((step s acc).dc = s.dc ∨ (step s acc).dc = s.dc + 1)) := by
  cases acc with
  | read a => exact real_address_counters s a false
  | write a v => exact real_address_counters s a true

/-- C10: counter ordering invariant.  In every state reachable by any
sequence of read/write accesses after construction the counters satisfy
`diskWrites ≤ pageFaults ≤ tlbMisses`: per translation request a disk
write only happens on a page fault with a dirty victim, and a page fault
is only counted after the TLB miss of the same request. -/
theorem counter_ordering (V P S T pa ta : Nat) (l : List Access) :
    (run (createVM V P S T pa ta) l).dc ≤ (run (createVM V P S T pa ta) l).pc ∧
    (run (createVM V P S T pa ta) l).pc ≤ (run (createVM V P S T pa ta) l).tc := by
  have key : ∀ (l : List Access) (s : VM), s.dc ≤ s.pc → s.pc ≤ s.tc →
      (run s l).dc ≤ (run s l).pc ∧ (run s l).pc ≤ (run s l).tc := by
    intro l
    induction l with
    | nil => exact fun s h1 h2 => ⟨h1, h2⟩
    | cons acc l ih =>
      intro s h1 h2
      show (run (step s acc) l).dc ≤ (run (step s acc) l).pc ∧
        (run (step s acc) l).pc ≤ (run (step s acc) l).tc
      rcases step_counters s acc with ⟨ht, hp, hd⟩ | ⟨ht, hp, hd⟩ | ⟨ht, hp, hd | hd⟩ <;>
        exact ih (step s acc) (by omega) (by omega)
  exact key l (createVM V P S T pa ta) (Nat.le_refl 0) (Nat.le_refl 0)

/-- Warm-path invariant for C9: page size and TLB size as configured, all
counters zero, and the initial identity TLB mappings for slots `[0, T)`
intact. -/
def WarmInv (S T : Nat) (s : VM) : Prop :=
  s.pagesize = S ∧ s.tlb = T ∧ s.pc = 0 ∧ s.tc = 0 ∧ s.dc = 0 ∧
  ∀ i, i < T → s.vtlb i = i ∧ s.ptlb i = i

theorem warm_real (S T : Nat) (s : VM) (a : Nat) (d : Bool) (hinv : WarmInv S T s)
    (hvpn : a / S < T) : WarmInv S T (real_address s a d).1 := by
  obtain ⟨hps, htlb, hpc, htc, hdc, hmap⟩ := hinv
  have hvs : s.vtlb (a / s.pagesize) = a / s.pagesize := by
    rw [hps]
    exact (hmap _ hvpn).1
  obtain ⟨i, hscan⟩ := @tlbScan_exists s (a / s.pagesize) (a / s.pagesize)
    (by rw [htlb, hps]; exact hvpn) hvs
  rcases real_address_cases s a d with
    ⟨i', _, _, _, hreal⟩ | ⟨hs, _⟩ | ⟨hs, _, _⟩
  · rw [hreal]
    exact ⟨hps, htlb, hpc, htc, hdc, hmap⟩
  · rw [hs] at hscan
    cases hscan
  · rw [hs] at hscan
    cases hscan

theorem warm_step (S T : Nat) (s : VM) (acc : Access) (hinv : WarmInv S T s)
    (hvpn : acc.addr / S < T) : WarmInv S T (step s acc) := by
  cases acc with
  | read a => exact warm_real S T s a false hinv hvpn
  | write a v => exact warm_real S T s a true hinv hvpn

/-- C9: zero-cost warm path.  Starting from the initial state of
`createVM V P S T`, every sequence of read/write accesses whose addresses
all lie in virtual pages `[0, T)` produces zero TLB misses, zero page
faults and zero disk writes, and the initial TLB mappings (slot `i` maps
virtual page `i` to frame `i`) are preserved throughout. -/
theorem zero_cost_warm_path (V P S T pa ta : Nat) (l : List Access)
    (hl : ∀ acc, acc ∈ l → Access.addr acc / S < T) :
    (run (createVM V P S T pa ta) l).tc = 0 ∧
    (run (createVM V P S T pa ta) l).pc = 0 ∧
    (run (createVM V P S T pa ta) l).dc = 0 ∧
    (∀ i, i < T → (run (createVM V P S T pa ta) l).vtlb i = i ∧
      (run (createVM V P S T pa ta) l).ptlb i = i) := by
  have key : ∀ (l : List Access) (s : VM), WarmInv S T s →
      (∀ acc, acc ∈ l → Access.addr acc / S < T) → WarmInv S T (run s l) := by
    intro l
    induction l with
    | nil => exact fun s h _ => h
    | cons acc l ih =>
      intro s h hl2
      exact ih (step s acc) (warm_step S T s acc h (hl2 acc (List.mem_cons_self acc l)))
        (fun b hb => hl2 b (List.mem_cons_of_mem acc hb))
  have hinit : WarmInv S T (createVM V P S T pa ta) := by
    refine ⟨rfl, rfl, rfl, rfl, rfl, ?_⟩
    intro i hi
    constructor
    · show (if i < T then i else 0) = i
      rw [if_pos hi]
    · show (if i < T then i else 0) = i
      rw [if_pos hi]
  obtain ⟨_, _, hpc, htc, hdc, hmap⟩ := key l (createVM V P S T pa ta) hinit hl
  exact ⟨htc, hpc, hdc, hmap⟩

/-- Witness for C9: three accesses confined to virtual page 0 in a
`createVM 4 2 2 1` instance leave all counters at zero and the TLB
mapping intact. -/
theorem zero_cost_warm_path_witness :
    (run (createVM 4 2 2 1 0 0) [.read 0, .write 1 5, .read 1]).tc = 0 ∧
    (run (createVM 4 2 2 1 0 0) [.read 0, .write 1 5, .read 1]).pc = 0 ∧
    (run (createVM 4 2 2 1 0 0) [.read 0, .write 1 5, .read 1]).dc = 0 ∧
    (∀ i, i < 1 → (run (createVM 4 2 2 1 0 0) [.read 0, .write 1 5, .read 1]).vtlb i = i ∧
      (run (createVM 4 2 2 1 0 0) [.read 0, .write 1 5, .read 1]).ptlb i = i) :=
  zero_cost_warm_path 4 2 2 1 0 0 [.read 0, .write 1 5, .read 1] (by decide)

/-- Frame returned by a TLB lookup (the second component of the C
`lookup_in_tlb_and_mark`, without the timestamp side effect). -/
def tlbLookup (s : VM) (pte : Nat) : Option Nat :=
  (lookup_in_tlb_and_mark s pte).2

theorem tlbLookup_eq_some {s : VM} {pte f : Nat} (h : tlbLookup s pte = some f) :
    ∃ i, tlbScan s pte = some i ∧ f = s.ptlb i := by
  unfold tlbLookup lookup_in_tlb_and_mark at h
  cases hscan : tlbScan s pte with
  | some i =>
    rw [hscan] at h
    exact ⟨i, rfl, by injection h with h2; exact h2.symm⟩
  | none =>
    rw [hscan] at h
    cases h

/-- TLB/page-table coherence invariant: every TLB slot stores a frame
inside the page table whose resident page is exactly the slot's virtual
page, and no two TLB slots store the same frame. -/
def TlbInv (s : VM) : Prop :=
  (∀ i, i < s.tlb → s.ptlb i < s.ppage ∧ s.pvirt (s.ptlb i) = s.vtlb i) ∧
  (∀ i j, i < s.tlb → j < s.tlb → i ≠ j → s.ptlb i ≠ s.ptlb j)

theorem TlbInv_addtlb (t : VM) (m pte : Nat)
    (hmp : 0 < t.ppage → m < t.ppage)
    (hpv : t.pvirt m = pte)
    (hcoh : ∀ i, i < t.tlb → t.ptlb i < t.ppage ∧ t.pvirt (t.ptlb i) = t.vtlb i)
    (hstale : ∀ i, i < t.tlb → t.vtlb i ≠ pte)
    (hdist : ∀ i j, i < t.tlb → j < t.tlb → i ≠ j → t.ptlb i ≠ t.ptlb j) :
    TlbInv (addtlb t m pte) := by
  have hnom : ∀ i, i < t.tlb → t.ptlb i ≠ m := by
    intro i hi he
    apply hstale i hi
    rw [← (hcoh i hi).2, he, hpv]
  unfold addtlb
  obtain ⟨r, hc⟩ := choose_tlb_spec t
  rcases hc with ⟨v, heq, _⟩ | heq <;> rw [heq]
  · constructor
    · intro i hi
      by_cases hiv : i = v
      · subst hiv
        have hpp : 0 < t.ppage := by
          rcases Nat.eq_zero_or_pos t.ppage with h0 | h0
          · have := (hcoh i hi).1
            omega
          · exact h0
        refine ⟨?_, ?_⟩
        · show upd t.ptlb i m i < t.ppage
          rw [upd_same]
          exact hmp hpp
        · show t.pvirt (upd t.ptlb i m i) = upd t.vtlb i pte i
          rw [upd_same, upd_same, hpv]
      · refine ⟨?_, ?_⟩
        · show upd t.ptlb v m i < t.ppage
          rw [upd_other _ _ _ hiv]
          exact (hcoh i hi).1
        · show t.pvirt (upd t.ptlb v m i) = upd t.vtlb v pte i
          rw [upd_other _ _ _ hiv, upd_other _ _ _ hiv]
          exact (hcoh i hi).2
    · intro i j hi hj hij
      show upd t.ptlb v m i ≠ upd t.ptlb v m j
      by_cases hiv : i = v
      · subst hiv
        rw [upd_same, upd_other _ _ _ (fun h => hij h.symm)]
        exact fun h => hnom j hj h.symm
      · by_cases hjv : j = v
        · subst hjv
          rw [upd_same, upd_other _ _ _ hiv]
          exact hnom i hi
        · rw [upd_other _ _ _ hiv, upd_other _ _ _ hjv]
          exact hdist i j hi hj hij
  · exact ⟨hcoh, hdist⟩

theorem TlbInv_flushtlb (t : VM) (m pte : Nat)
    (hmp : 0 < t.ppage → m < t.ppage)
    (hpv : t.pvirt m = pte)
    (hcoh : ∀ i, i < t.tlb → t.ptlb i < t.ppage ∧
      (t.ptlb i ≠ m → t.pvirt (t.ptlb i) = t.vtlb i))
    (hstale : ∀ i, i < t.tlb → t.vtlb i ≠ pte)
    (hdist : ∀ i j, i < t.tlb → j < t.tlb → i ≠ j → t.ptlb i ≠ t.ptlb j) :
    TlbInv (flushtlb t m pte) := by
  unfold flushtlb
  cases hf : findFrom (fun i => t.ptlb i == m) 0 t.tlb with
  | some i0 =>
    obtain ⟨_, hlt, hbeq, _⟩ := findFrom_eq_some hf
    have hi0 : i0 < t.tlb := by omega
    have hfr : t.ptlb i0 = m := by simpa using hbeq
    constructor
    · intro i hi
      by_cases hii : i = i0
      · subst hii
        refine ⟨(hcoh i hi).1, ?_⟩
        show t.pvirt (t.ptlb i) = upd t.vtlb i pte i
        rw [upd_same, hfr, hpv]
      · refine ⟨(hcoh i hi).1, ?_⟩
        show t.pvirt (t.ptlb i) = upd t.vtlb i0 pte i
        rw [upd_other _ _ _ hii]
        refine (hcoh i hi).2 ?_
        intro he
        exact hdist i i0 hi hi0 hii (he.trans hfr.symm)
    · exact hdist
  | none =>
    have hnom : ∀ i, i < t.tlb → t.ptlb i ≠ m := by
      intro i hi
      have := findFrom_eq_none hf i (Nat.zero_le i) (by omega)
      simpa using this
    exact TlbInv_addtlb t m pte hmp hpv
      (fun i hi => ⟨(hcoh i hi).1, (hcoh i hi).2 (hnom i hi)⟩) hstale hdist

theorem TlbInv_real (s : VM) (a : Nat) (d : Bool) (h : TlbInv s) :
    TlbInv (real_address s a d).1 := by
  rcases real_address_cases s a d with
    ⟨i, _, _, _, hreal⟩ | ⟨hs, m, hm, _, hv, hreal⟩ | ⟨hs, hmem, hcase⟩
  · rw [hreal]
    exact h
  · rw [hreal]
    exact TlbInv_addtlb (mark { s with timestamp := s.timestamp + 1, tc := s.tc + 1 } m d)
      m (a / s.pagesize) (fun _ => hm) hv h.1 (tlbScan_eq_none hs) h.2
  · rcases hcase with ⟨r, m, hmb, _, hreal⟩ | ⟨r, _, hreal⟩
    · rw [hreal]
      rw [faultState_eq]
      refine TlbInv_flushtlb _ m (a / s.pagesize) hmb (upd_same _ _ _) ?_
        (tlbScan_eq_none hs) h.2
      intro i hi
      refine ⟨(h.1 i hi).1, ?_⟩
      intro hne
      show upd s.pvirt m (a / s.pagesize) (s.ptlb i) = s.vtlb i
      rw [upd_other _ _ _ hne]
      exact (h.1 i hi).2
    · rw [hreal]
      exact h

theorem TlbInv_step (s : VM) (acc : Access) (h : TlbInv s) : TlbInv (step s acc) := by
  cases acc with
  | read a => exact TlbInv_real s a false h
  | write a v => exact TlbInv_real s a true h

theorem real_address_config (s : VM) (a : Nat) (d : Bool) :
    (real_address s a d).1.pagesize = s.pagesize ∧
    (real_address s a d).1.vpage = s.vpage ∧
    (real_address s a d).1.ppage = s.ppage ∧
    (real_address s a d).1.palg = s.palg ∧
    (real_address s a d).1.tlb = s.tlb ∧
    (real_address s a d).1.tlbalg = s.tlbalg := by
  rcases real_address_cases s a d with
    ⟨i, _, _, _, hreal⟩ | ⟨_, m, _, _, _, hreal⟩ | ⟨_, _, hcase⟩
  · rw [hreal]
    exact ⟨rfl, rfl, rfl, rfl, rfl, rfl⟩
  · rw [hreal]
    obtain ⟨pt, vt, tt, rr, hsh⟩ := addtlb_shape
      (mark { s with timestamp := s.timestamp + 1, tc := s.tc + 1 } m d) m
      (a / s.pagesize)
    rw [hsh]
    exact ⟨rfl, rfl, rfl, rfl, rfl, rfl⟩
  · rcases hcase with ⟨r, m, _, _, hreal⟩ | ⟨r, _, hreal⟩
    · rw [hreal]
      exact faultState_config s r m (a / s.pagesize) d
    · rw [hreal]
      exact ⟨rfl, rfl, rfl, rfl, rfl, rfl⟩

theorem step_config (s : VM) (acc : Access) :
    (step s acc).pagesize = s.pagesize ∧ (step s acc).vpage = s.vpage ∧
    (step s acc).ppage = s.ppage ∧ (step s acc).palg = s.palg ∧
    (step s acc).tlb = s.tlb ∧ (step s acc).tlbalg = s.tlbalg := by
  cases acc with
  | read a => exact real_address_config s a false
  | write a v => exact real_address_config s a true

theorem run_config (s : VM) (l : List Access) :
    (run s l).pagesize = s.pagesize ∧ (run s l).vpage = s.vpage ∧
    (run s l).ppage = s.ppage ∧ (run s l).palg = s.palg ∧
    (run s l).tlb = s.tlb ∧ (run s l).tlbalg = s.tlbalg := by
  induction l generalizing s with
  | nil => exact ⟨rfl, rfl, rfl, rfl, rfl, rfl⟩
  | cons acc l ih =>
    obtain ⟨h1, h2, h3, h4, h5, h6⟩ := ih (step s acc)
    obtain ⟨g1, g2, g3, g4, g5, g6⟩ := step_config s acc
    exact ⟨h1.trans g1, h2.trans g2, h3.trans g3, h4.trans g4, h5.trans g5, h6.trans g6⟩

/-- C1: TLB-page-table coherence.  In every reachable state (any access
sequence from any initial configuration with `T ≤ P`), a TLB hit for a
virtual page returns a frame whose page-table entry currently holds that
very page.  In particular, after a page-table eviction of frame `f` that
previously held page `p`, a TLB lookup for `p` can never return `f` while
`f` holds a different page: either the slot was overwritten (by `flushtlb`
during the fault) or the lookup misses. -/
theorem tlb_page_table_coherence (V P S T pa ta : Nat) (hT : T ≤ P) (l : List Access) :
    (∀ p f, tlbLookup (run (createVM V P S T pa ta) l) p = some f →
      f < P ∧ (run (createVM V P S T pa ta) l).pvirt f = p) ∧
    (∀ p f, (run (createVM V P S T pa ta) l).pvirt f ≠ p →
      tlbLookup (run (createVM V P S T pa ta) l) p ≠ some f) := by
  have hinit : TlbInv (createVM V P S T pa ta) := by
    constructor
    · intro i hi
      have hiT : i < T := hi
      have hiP : i < P := by omega
      constructor
      · show (if i < T then i else 0) < P
        rw [if_pos hiT]
        exact hiP
      · show (if (if i < T then i else 0) < P then (if i < T then i else 0) else 0)
          = (if i < T then i else 0)
        rw [if_pos hiT, if_pos hiP]
    · intro i j hi hj hij
      have hiT : i < T := hi
      have hjT : j < T := hj
      show (if i < T then i else 0) ≠ (if j < T then j else 0)
      rw [if_pos hiT, if_pos hjT]
      exact hij
  have hTlb : TlbInv (run (createVM V P S T pa ta) l) := by
    have key : ∀ (l : List Access) (s : VM), TlbInv s → TlbInv (run s l) := by
      intro l
      induction l with
      | nil => exact fun s h => h
      | cons acc l ih => exact fun s h => ih (step s acc) (TlbInv_step s acc h)
    exact key l _ hinit
  have hpp : (run (createVM V P S T pa ta) l).ppage = P := (run_config _ l).2.2.1
  constructor
  · intro p f hf
    obtain ⟨i, hscan, hfe⟩ := tlbLookup_eq_some hf
    obtain ⟨hi, hv, _⟩ := tlbScan_eq_some hscan
    obtain ⟨h1, h2⟩ := hTlb.1 i hi
    subst hfe
    exact ⟨by omega, by rw [h2, hv]⟩
  · intro p f hne hf
    obtain ⟨i, hscan, hfe⟩ := tlbLookup_eq_some hf
    obtain ⟨hi, hv, _⟩ := tlbScan_eq_some hscan
    apply hne
    subst hfe
    rw [(hTlb.1 i hi).2, hv]

/-- Witness for C1 at a concrete reachable state: after a fault that
evicts frame 0 (previously holding page 0) in a `createVM 4 2 2 1`
instance, a TLB hit for page 2 returns frame 0, whose page-table entry is
indeed page 2. -/
theorem tlb_page_table_coherence_witness :
    2 > 0 ∧ (run (createVM 4 2 2 1 0 0) [.read 4]).pvirt 0 = 2 :=
  ⟨Nat.succ_pos 1,
    ((tlb_page_table_coherence 4 2 2 1 0 0 (by decide) [.read 4]).1 2 0 (by decide)).2⟩

/-- Word indices of two distinct pages never collide: offset `o < S` of
page `q` lies outside the word range `[p * S, p * S + S)` of page `p`. -/
theorem page_range_disjoint {S p q o : Nat} (hpq : p ≠ q) (ho : o < S) :
    q * S + o < p * S ∨ p * S + S ≤ q * S + o := by
  rcases Nat.lt_or_ge q p with h | h
  · left
    have h1 : q + 1 ≤ p := h
    have h2 : (q + 1) * S ≤ p * S := Nat.mul_le_mul_right S h1
    rw [Nat.succ_mul] at h2
    omega
  · right
    have h1 : p + 1 ≤ q := by omega
    have h2 : (p + 1) * S ≤ q * S := Nat.mul_le_mul_right S h1
    rw [Nat.succ_mul] at h2
    omega

/-- Injectivity of the page table: at most one frame holds a given page. -/
def PtInj (s : VM) : Prop :=
  ∀ f g, f < s.ppage → g < s.ppage → f ≠ g → s.pvirt f ≠ s.pvirt g

/-- Clean frames agree with their disk slot: if a resident page is not
dirty, the physical frame content equals the page's disk slot content. -/
def CleanAgrees (s : VM) : Prop :=
  ∀ f, f < s.ppage → s.dirty f = false →
    ∀ o, o < s.pagesize → s.mem (f * s.pagesize + o) = s.disk (s.pvirt f * s.pagesize + o)

/-- Full state invariant backing the dirty-page round-trip argument. -/
def Inv (s : VM) : Prop :=
  0 < s.pagesize ∧ 0 < s.ppage ∧ TlbInv s ∧ PtInj s ∧ CleanAgrees s ∧
  (∀ f, f < s.ppage → s.ptime f ≤ s.timestamp)

/-- Abstract content of virtual page `p` at word offset `o`: the resident
frame's memory when `p` is resident, the page's disk slot otherwise. -/
def abstractWord (s : VM) (p o : Nat) : Int :=
  match lookup_in_mem s p with
  | some f => s.mem (f * s.pagesize + o)
  | none => s.disk (p * s.pagesize + o)

theorem lookup_in_mem_unique {s : VM} (hInj : PtInj s) {f p : Nat} (hf : f < s.ppage)
    (hp : s.pvirt f = p) : lookup_in_mem s p = some f := by
  obtain ⟨g, hg⟩ := lookup_in_mem_exists hf hp
  obtain ⟨hgP, hgp, _⟩ := lookup_in_mem_eq_some hg
  have hgf : g = f := by
    by_contra hne
    exact hInj g f hgP hf hne (hgp.trans hp.symm)
  rw [hg, hgf]

/-- Does a translation request for address `b` take the fault path with a
dirty victim (hence perform a disk write)? -/
def evictsDirty (t : VM) (b : Nat) : Bool :=
  match tlbScan t (b / t.pagesize) with
  | some _ => false
  | none =>
    match lookup_in_mem t (b / t.pagesize) with
    | some _ => false
    | none =>
      match (choose_page { t with timestamp := t.timestamp + 1, tc := t.tc + 1,
                                  pc := t.pc + 1 }).2 with
      | some m => t.dirty m
      | none => false

/-- Each translation request increments `dc` (diskWrites) by exactly one
when it faults with a dirty victim, and leaves it unchanged otherwise. -/
theorem real_address_dc (t : VM) (b : Nat) (d : Bool) :
    (real_address t b d).1.dc = t.dc + (if evictsDirty t b then 1 else 0) := by
  rcases real_address_cases t b d with
    ⟨i, _, hs, _, hreal⟩ | ⟨hs, m, _, hm, _, hreal⟩ | ⟨hs, hmem, hcase⟩
  · rw [hreal]
    unfold evictsDirty
    rw [hs]
    rfl
  · rw [hreal]
    obtain ⟨pt, vt, tt, rr, hsh⟩ := addtlb_shape
      (mark { t with timestamp := t.timestamp + 1, tc := t.tc + 1 } m d) m
      (b / t.pagesize)
    rw [hsh]
    unfold evictsDirty
    rw [hs, hm]
    rfl
  · rcases hcase with ⟨r, m, _, heq, hreal⟩ | ⟨r, hcp, hreal⟩
    · rw [hreal, faultState_dc]
      unfold evictsDirty
      rw [hs, hmem]
      have h2 : (choose_page { t with
          timestamp := t.timestamp + 1,
          tc := t.tc + 1,
          pc := t.pc + 1 }).2 = some m := by
        rw [heq]
      rw [h2]
    · rw [hreal]
      unfold evictsDirty
      rw [hs, hmem]
      have h2 : (choose_page { t with
          timestamp := t.timestamp + 1,
          tc := t.tc + 1,
          pc := t.pc + 1 }).2 = none := by
        rw [hcp]
      rw [h2]
      rfl

theorem abstract_congr (s X : VM) (hpg : X.pagesize = s.pagesize)
    (hpp : X.ppage = s.ppage) (hpv : X.pvirt = s.pvirt) (hmm : X.mem = s.mem)
    (hdisk : X.disk = s.disk) : ∀ p o, abstractWord X p o = abstractWord s p o := by
  intro p o
  unfold abstractWord lookup_in_mem
  rw [hpv, hpp, hmm, hdisk, hpg]

/-- A translation path that only touches frame `f` (hit or page-table hit)
preserves the full invariant. -/
theorem Inv_touch (s X : VM) (f : Nat) (d : Bool) (hf : f < s.ppage)
    (hpg : X.pagesize = s.pagesize) (hpp : X.ppage = s.ppage)
    (hpv : X.pvirt = s.pvirt) (hmm : X.mem = s.mem) (hdisk : X.disk = s.disk)
    (hdirty : X.dirty = (if d then upd s.dirty f true else s.dirty))
    (hptime : X.ptime = upd s.ptime f (s.timestamp + 1))
    (hts : X.timestamp = s.timestamp + 1)
    (hTlbX : TlbInv X) (hInv : Inv s) : Inv X := by
  obtain ⟨hS, hP, hTlb, hInj, hClean, hTB⟩ := hInv
  refine ⟨by rw [hpg]; exact hS, by rw [hpp]; exact hP, hTlbX, ?_, ?_, ?_⟩
  · intro f1 g1 hf1 hg1 hne
    rw [hpp] at hf1 hg1
    rw [hpv]
    exact hInj f1 g1 hf1 hg1 hne
  · intro g hg hgd o ho
    rw [hpp] at hg
    rw [hpg] at ho
    rw [hmm, hdisk, hpv, hpg]
    rw [hdirty] at hgd
    refine hClean g hg ?_ o ho
    cases d
    · exact hgd
    · have hgd2 : upd s.dirty f true g = false := hgd
      by_cases hgf : g = f
      · rw [hgf, upd_same] at hgd2
        cases hgd2
      · rw [upd_other _ _ _ hgf] at hgd2
        exact hgd2
  · intro g hg
    rw [hpp] at hg
    rw [hptime, hts]
    by_cases hgf : g = f
    · rw [hgf, upd_same]
    · rw [upd_other _ _ _ hgf]
      have := hTB g hg
      omega

theorem dirty_touch (s X : VM) (f : Nat) (d : Bool)
    (hdirty : X.dirty = (if d then upd s.dirty f true else s.dirty)) :
    d = true → X.dirty f = true := by
  intro hd
  subst hd
  rw [hdirty]
  show upd s.dirty f true f = true
  exact upd_same _ _ _

theorem abstractWord_eq_some {s : VM} {p f o : Nat} (h : lookup_in_mem s p = some f) :
    abstractWord s p o = s.mem (f * s.pagesize + o) := by
  unfold abstractWord
  rw [h]

theorem abstractWord_eq_none {s : VM} {p o : Nat} (h : lookup_in_mem s p = none) :
    abstractWord s p o = s.disk (p * s.pagesize + o) := by
  unfold abstractWord
  rw [h]

/-- Full effect of the fault branch on the invariant and the abstract
memory: the victim's page moves (or already coincides) with its disk slot,
the incoming page's disk content appears in the victim frame, every
abstract page content is preserved, and the invariant survives. -/
theorem fault_master (s : VM) (r m pte : Nat) (d : Bool)
    (hInv : Inv s) (hm : m < s.ppage)
    (hscan : tlbScan s pte = none)
    (hmemn : lookup_in_mem s pte = none) :
    (faultState s r m pte d).pvirt m = pte ∧
    (d = true → (faultState s r m pte d).dirty m = true) ∧
    Inv (faultState s r m pte d) ∧
    (faultState s r m pte d).timestamp = s.timestamp + 1 ∧
    (∀ p o, o < s.pagesize → abstractWord (faultState s r m pte d) p o = abstractWord s p o) ∧
    (∀ o, o < s.pagesize →
      (faultState s r m pte d).mem (m * s.pagesize + o) = abstractWord s pte o) := by
  obtain ⟨hS, hP, hTlb, hInj, hClean, hTB⟩ := hInv
  have hq : s.pvirt m ≠ pte := lookup_in_mem_eq_none hmemn m hm
  have hdisk := faultState_disk s r m pte d
  have hmemX := faultState_mem s r m pte d
  have hpvX := faultState_pvirt s r m pte d
  have hdirtyX := faultState_dirty s r m pte d
  have hptimeX := faultState_ptime s r m pte d
  have htsX := faultState_timestamp s r m pte d
  obtain ⟨hcf1, hcf2, hcf3, hcf4, hcf5, hcf6⟩ := faultState_config s r m pte d
  have hDout : ∀ p2 o, o < s.pagesize → p2 ≠ s.pvirt m →
      (if s.dirty m then
         copyWords s.disk (s.pvirt m * s.pagesize) s.mem (m * s.pagesize) s.pagesize
       else s.disk) (p2 * s.pagesize + o) = s.disk (p2 * s.pagesize + o) := by
    intro p2 o ho hne
    by_cases hd : s.dirty m
    · rw [if_pos hd]
      exact copyWords_out (page_range_disjoint (fun h => hne h.symm) ho)
    · rw [if_neg hd]
  have hDin : s.dirty m = true → ∀ o, o < s.pagesize →
      (if s.dirty m then
         copyWords s.disk (s.pvirt m * s.pagesize) s.mem (m * s.pagesize) s.pagesize
       else s.disk) (s.pvirt m * s.pagesize + o) = s.mem (m * s.pagesize + o) := by
    intro hd o ho
    rw [if_pos hd]
    exact copyWords_in ho
  have hMout : ∀ g o, o < s.pagesize → g ≠ m →
      (faultState s r m pte d).mem (g * s.pagesize + o) = s.mem (g * s.pagesize + o) := by
    intro g o ho hne
    rw [hmemX]
    exact copyWords_out (page_range_disjoint (fun h => hne h.symm) ho)
  have hMin : ∀ o, o < s.pagesize →
      (faultState s r m pte d).mem (m * s.pagesize + o)
        = (if s.dirty m then
             copyWords s.disk (s.pvirt m * s.pagesize) s.mem (m * s.pagesize) s.pagesize
           else s.disk) (pte * s.pagesize + o) := by
    intro o ho
    rw [hmemX]
    exact copyWords_in ho
  have hMval : ∀ o, o < s.pagesize →
      (faultState s r m pte d).mem (m * s.pagesize + o) = s.disk (pte * s.pagesize + o) := by
    intro o ho
    rw [hMin o ho]
    exact hDout pte o ho (fun h => hq h.symm)
  have hlkX : ∀ p, lookup_in_mem (faultState s r m pte d) p
      = findFrom (fun i => upd s.pvirt m pte i == p) 0 s.ppage := by
    intro p
    unfold lookup_in_mem
    rw [hpvX, hcf3]
  have hlkXpte : lookup_in_mem (faultState s r m pte d) pte = some m := by
    rw [hlkX]
    obtain ⟨j, hj⟩ := @findFrom_exists_of_mem (fun i => upd s.pvirt m pte i == pte)
      s.ppage 0 m (Nat.zero_le m) (by omega) (by simp [upd_same])
    obtain ⟨_, hjlt, hjtrue, _⟩ := findFrom_eq_some hj
    have hjtrue2 : (upd s.pvirt m pte j == pte) = true := hjtrue
    have hjm : j = m := by
      by_contra hne
      rw [upd_other _ _ _ hne] at hjtrue2
      have h3 : s.pvirt j = pte := by simpa using hjtrue2
      exact lookup_in_mem_eq_none hmemn j (by omega) h3
    rw [hj, hjm]
  have hlkXq : lookup_in_mem (faultState s r m pte d) (s.pvirt m) = none := by
    rw [hlkX]
    cases hfind : findFrom (fun i => upd s.pvirt m pte i == s.pvirt m) 0 s.ppage with
    | none => rfl
    | some j =>
      obtain ⟨_, hjlt, hjtrue, _⟩ := findFrom_eq_some hfind
      have hjtrue2 : (upd s.pvirt m pte j == s.pvirt m) = true := hjtrue
      exfalso
      by_cases hjm : j = m
      · rw [hjm, upd_same] at hjtrue2
        have h3 : pte = s.pvirt m := by simpa using hjtrue2
        exact hq h3.symm
      · rw [upd_other _ _ _ hjm] at hjtrue2
        have h3 : s.pvirt j = s.pvirt m := by simpa using hjtrue2
        exact hInj j m (by omega) hm hjm h3
  have hlkXother : ∀ p, p ≠ pte → p ≠ s.pvirt m →
      lookup_in_mem (faultState s r m pte d) p = lookup_in_mem s p := by
    intro p hp1 hp2
    rw [hlkX]
    unfold lookup_in_mem
    apply findFrom_congr
    intro k _ hk2
    by_cases hkm : k = m
    · subst hkm
      show (upd s.pvirt k pte k == p) = (s.pvirt k == p)
      rw [upd_same]
      have e1 : (pte == p) = false := by
        simp only [beq_eq_false_iff_ne, ne_eq]
        exact fun h => hp1 h.symm
      have e2 : (s.pvirt k == p) = false := by
        simp only [beq_eq_false_iff_ne, ne_eq]
        exact fun h => hp2 h.symm
      rw [e1, e2]
    · show (upd s.pvirt m pte k == p) = (s.pvirt k == p)
      rw [upd_other _ _ _ hkm]
  refine ⟨by rw [hpvX]; exact upd_same _ _ _, ?_, ?_, htsX, ?_, ?_⟩
  · intro hd
    subst hd
    rw [hdirtyX]
    exact upd_same _ _ _
  · refine ⟨by rw [hcf1]; exact hS, by rw [hcf3]; exact hP, ?_, ?_, ?_, ?_⟩
    · rw [faultState_eq]
      refine TlbInv_flushtlb _ m pte (fun _ => hm) (upd_same _ _ _) ?_
        (tlbScan_eq_none hscan) hTlb.2
      intro i hi
      refine ⟨(hTlb.1 i hi).1, ?_⟩
      intro hne
      show upd s.pvirt m pte (s.ptlb i) = s.vtlb i
      rw [upd_other _ _ _ hne]
      exact (hTlb.1 i hi).2
    · intro f g hf hg hne
      rw [hcf3] at hf hg
      rw [hpvX]
      by_cases hfm : f = m
      · subst hfm
        rw [upd_same, upd_other _ _ _ (fun h => hne h.symm)]
        intro h
        exact lookup_in_mem_eq_none hmemn g hg h.symm
      · by_cases hgm : g = m
        · subst hgm
          rw [upd_same, upd_other _ _ _ hfm]
          exact lookup_in_mem_eq_none hmemn f hf
        · rw [upd_other _ _ _ hfm, upd_other _ _ _ hgm]
          exact hInj f g hf hg hne
    · intro g hg hgd o ho
      rw [hcf3] at hg
      rw [hcf1] at ho
      rw [hdirtyX] at hgd
      by_cases hgm : g = m
      · subst hgm
        rw [upd_same] at hgd
        rw [hcf1, hpvX, upd_same, hdisk]
        exact hMin o ho
      · rw [upd_other _ _ _ hgm] at hgd
        rw [hcf1, hpvX, upd_other _ _ _ hgm, hdisk]
        rw [hMout g o ho hgm, hDout (s.pvirt g) o ho (hInj g m hg hm hgm)]
        exact hClean g hg hgd o ho
    · intro g hg
      rw [hcf3] at hg
      rw [hptimeX, htsX]
      by_cases hgm : g = m
      · rw [hgm, upd_same]
      · rw [upd_other _ _ _ hgm]
        have := hTB g hg
        omega
  · intro p o ho
    by_cases hp1 : p = pte
    · subst hp1
      rw [abstractWord_eq_some hlkXpte, abstractWord_eq_none hmemn, hcf1]
      exact hMval o ho
    · by_cases hp2 : p = s.pvirt m
      · subst hp2
        rw [abstractWord_eq_none hlkXq,
          abstractWord_eq_some (lookup_in_mem_unique hInj hm rfl), hcf1, hdisk]
        by_cases hd : s.dirty m
        · exact hDin hd o ho
        · rw [if_neg hd]
          have hdf : s.dirty m = false := by
            simpa using hd
          exact (hClean m hm hdf o ho).symm
      · cases hls : lookup_in_mem s p with
        | some g =>
          obtain ⟨hgP, hgp, _⟩ := lookup_in_mem_eq_some hls
          have hgm : g ≠ m := fun h => hp2 (by rw [← hgp, h])
          rw [abstractWord_eq_some ((hlkXother p hp1 hp2).trans hls),
            abstractWord_eq_some hls, hcf1]
          exact hMout g o ho hgm
        | none =>
          rw [abstractWord_eq_none ((hlkXother p hp1 hp2).trans hls),
            abstractWord_eq_none hls, hcf1, hdisk]
          exact hDout p o ho hp2
  · intro o ho
    rw [abstractWord_eq_none hmemn]
    exact hMval o ho

/-- Master lemma about one translation request: starting from an invariant
state whose logical clock has not saturated the C `int` range, the request
resolves to a frame holding the requested page, marks it dirty on writes,
preserves the invariant, ticks the clock, leaves every abstract page
content unchanged, and the resolved physical word holds the abstract
content of the requested address. -/
theorem real_address_master (s : VM) (a : Nat) (d : Bool) (hInv : Inv s)
    (hts : s.timestamp < 2147483647) :
    ∃ f, (real_address s a d).2 = f * s.pagesize + a % s.pagesize ∧ f < s.ppage ∧
      (real_address s a d).1.pvirt f = a / s.pagesize ∧
      (d = true → (real_address s a d).1.dirty f = true) ∧
      Inv (real_address s a d).1 ∧
      (real_address s a d).1.timestamp = s.timestamp + 1 ∧
      (∀ p o, o < s.pagesize → abstractWord (real_address s a d).1 p o = abstractWord s p o) ∧
      (real_address s a d).1.mem ((real_address s a d).2)
        = abstractWord s (a / s.pagesize) (a % s.pagesize) := by
  have hS : 0 < s.pagesize := hInv.1
  have hP : 0 < s.ppage := hInv.2.1
  have hTlb : TlbInv s := hInv.2.2.1
  have hInj : PtInj s := hInv.2.2.2.1
  have hTB : ∀ g, g < s.ppage → s.ptime g ≤ s.timestamp := hInv.2.2.2.2.2
  have hadd : a % s.pagesize < s.pagesize := Nat.mod_lt a hS
  rcases real_address_cases s a d with
    ⟨i, hi, hscan, hv, hreal⟩ | ⟨hs, m, hm, hmem, hv, hreal⟩ | ⟨hs, hmem, hcase⟩
  · -- TLB hit at slot i; the frame is s.ptlb i
    obtain ⟨hfP, hfv⟩ := hTlb.1 i hi
    have hfpte : s.pvirt (s.ptlb i) = a / s.pagesize := hfv.trans hv
    have hlk : lookup_in_mem s (a / s.pagesize) = some (s.ptlb i) :=
      lookup_in_mem_unique hInj hfP hfpte
    refine ⟨s.ptlb i, ?_, hfP, ?_, ?_, ?_, ?_, ?_, ?_⟩
    · rw [hreal]
    · rw [hreal]
      exact hfpte
    · rw [hreal]
      exact dirty_touch s _ (s.ptlb i) d rfl
    · rw [hreal]
      exact Inv_touch s _ (s.ptlb i) d hfP rfl rfl rfl rfl rfl rfl rfl rfl hTlb hInv
    · rw [hreal]
      rfl
    · intro p o ho
      rw [hreal]
      exact abstract_congr s _ rfl rfl rfl rfl rfl p o
    · rw [hreal, abstractWord_eq_some hlk]
      rfl
  · -- TLB miss, page-table hit at frame m
    obtain ⟨pt, vt, tt, rr, hsh⟩ := addtlb_shape
      (mark { s with timestamp := s.timestamp + 1, tc := s.tc + 1 } m d) m
      (a / s.pagesize)
    refine ⟨m, ?_, hm, ?_, ?_, ?_, ?_, ?_, ?_⟩
    · rw [hreal]
    · rw [hreal, hsh]
      exact hv
    · rw [hreal, hsh]
      exact dirty_touch s _ m d rfl
    · rw [hreal]
      exact Inv_touch s _ m d hm (by rw [hsh]; rfl) (by rw [hsh]; rfl) (by rw [hsh]; rfl)
        (by rw [hsh]; rfl) (by rw [hsh]; rfl) (by rw [hsh]; rfl) (by rw [hsh]; rfl)
        (by rw [hsh]; rfl)
        (TlbInv_addtlb _ m _ (fun _ => hm) hv hTlb.1 (tlbScan_eq_none hs) hTlb.2) hInv
    · rw [hreal, hsh]
      rfl
    · intro p o ho
      rw [hreal]
      exact abstract_congr s _ (by rw [hsh]; rfl) (by rw [hsh]; rfl) (by rw [hsh]; rfl)
        (by rw [hsh]; rfl) (by rw [hsh]; rfl) p o
    · rw [hreal, hsh, abstractWord_eq_some hmem]
      rfl
  · rcases hcase with ⟨r, m, hmb, heq, hreal⟩ | ⟨r, hcp, hreal⟩
    · -- page fault with victim m
      have hm : m < s.ppage := hmb hP
      obtain ⟨hc1, hc2, hc3, hc4, hc5, hc6⟩ :=
        fault_master s r m (a / s.pagesize) d
          ⟨hS, hP, hTlb, hInj, hInv.2.2.2.2.1, hTB⟩ hm hs hmem
      refine ⟨m, ?_, hm, ?_, ?_, ?_, ?_, ?_, ?_⟩
      · rw [hreal]
      · rw [hreal]
        exact hc1
      · rw [hreal]
        exact hc2
      · rw [hreal]
        exact hc3
      · rw [hreal]
        exact hc4
      · intro p o ho
        rw [hreal]
        exact hc5 p o ho
      · rw [hreal]
        exact hc6 (a % s.pagesize) hadd
    · -- degenerate victimless fault: impossible while the clock is in range
      exfalso
      by_cases hpalg : s.palg = 0
      · have h0 : ({ s with
            timestamp := s.timestamp + 1,
            tc := s.tc + 1,
            pc := s.pc + 1 } : VM).palg = 0 := hpalg
        rw [choose_page_rr _ h0] at hcp
        exact absurd (congrArg Prod.snd hcp) (by simp)
      · obtain ⟨j, hj, _⟩ := @minindexAux_min s.ptime s.ppage 0 2147483647 none
          ⟨0, Nat.le_refl 0, by omega, by have := hTB 0 hP; omega⟩
        have hlru : (choose_page ({ s with
            timestamp := s.timestamp + 1,
            tc := s.tc + 1,
            pc := s.pc + 1 } : VM)).2 = minindex s.ptime s.ppage := by
          unfold choose_page
          rw [if_neg hpalg]
        have hnone : (choose_page ({ s with
            timestamp := s.timestamp + 1,
            tc := s.tc + 1,
            pc := s.pc + 1 } : VM)).2 = none := by
          rw [hcp]
        rw [hlru] at hnone
        have hj2 : minindex s.ptime s.ppage = some j := hj
        rw [hnone] at hj2
        cases hj2

theorem readInt_master (s : VM) (a : Nat) (hInv : Inv s)
    (hts : s.timestamp < 2147483647) :
    (readInt s a).2 = abstractWord s (a / s.pagesize) (a % s.pagesize) ∧
    Inv (readInt s a).1 ∧ (readInt s a).1.timestamp = s.timestamp + 1 ∧
    (∀ p o, o < s.pagesize → abstractWord (readInt s a).1 p o = abstractWord s p o) := by
  obtain ⟨f, h1, h2, h3, h4, h5, h6, h7, h8⟩ := real_address_master s a false hInv hts
  exact ⟨h8, h5, h6, h7⟩

theorem writeInt_master (s : VM) (a : Nat) (v : Int) (hInv : Inv s)
    (hts : s.timestamp < 2147483647) :
    Inv (writeInt s a v) ∧ (writeInt s a v).timestamp = s.timestamp + 1 ∧
    abstractWord (writeInt s a v) (a / s.pagesize) (a % s.pagesize) = v ∧
    (∀ p o, o < s.pagesize → ¬(p = a / s.pagesize ∧ o = a % s.pagesize) →
      abstractWord (writeInt s a v) p o = abstractWord s p o) := by
  obtain ⟨f, h1, h2, h3, h4, h5, h6, h7, h8⟩ := real_address_master s a true hInv hts
  have hS : 0 < s.pagesize := hInv.1
  have hadd : a % s.pagesize < s.pagesize := Nat.mod_lt a hS
  have hcfg := real_address_config s a true
  have hSX : (real_address s a true).1.pagesize = s.pagesize := hcfg.1
  have hppX : (real_address s a true).1.ppage = s.ppage := hcfg.2.2.1
  have hdX : (real_address s a true).1.dirty f = true := h4 rfl
  have hInjX : PtInj (real_address s a true).1 := h5.2.2.2.1
  have hCleanX : CleanAgrees (real_address s a true).1 := h5.2.2.2.2.1
  have hlkXW : ∀ p, lookup_in_mem (writeInt s a v) p
      = lookup_in_mem (real_address s a true).1 p := fun p => rfl
  have hlkXf : lookup_in_mem (real_address s a true).1 (a / s.pagesize) = some f :=
    lookup_in_mem_unique hInjX (by rw [hppX]; exact h2) h3
  have hWpg : (writeInt s a v).pagesize = s.pagesize := hSX
  have hWmem : (writeInt s a v).mem
      = upd (real_address s a true).1.mem (f * s.pagesize + a % s.pagesize) v := by
    show upd (real_address s a true).1.mem (real_address s a true).2 v = _
    rw [h1]
  refine ⟨?_, h6, ?_, ?_⟩
  · -- the invariant survives the one-word store into the dirty frame
    refine ⟨by rw [hWpg]; exact hS, ?_, h5.2.2.1, h5.2.2.2.1, ?_, h5.2.2.2.2.2⟩
    · show 0 < (real_address s a true).1.ppage
      exact h5.2.1
    · intro g hg hgd o ho
      have hg2 : g < (real_address s a true).1.ppage := hg
      have hgd2 : (real_address s a true).1.dirty g = false := hgd
      have ho2 : o < (real_address s a true).1.pagesize := ho
      have hgf : g ≠ f := by
        intro he
        rw [he, hdX] at hgd2
        cases hgd2
      have hne : g * (real_address s a true).1.pagesize + o
          ≠ f * s.pagesize + a % s.pagesize := by
        rw [hSX]
        rw [hSX] at ho2
        rcases page_range_disjoint (q := f) hgf hadd with hlt | hge <;> omega
      show (writeInt s a v).mem (g * (writeInt s a v).pagesize + o)
          = (writeInt s a v).disk
              ((writeInt s a v).pvirt g * (writeInt s a v).pagesize + o)
      have hmemeq : (writeInt s a v).mem (g * (writeInt s a v).pagesize + o)
          = (real_address s a true).1.mem
              (g * (real_address s a true).1.pagesize + o) := by
        show (writeInt s a v).mem (g * (real_address s a true).1.pagesize + o) = _
        rw [hWmem]
        exact upd_other _ _ _ hne
      rw [hmemeq]
      exact hCleanX g hg2 hgd2 o ho2
  · rw [abstractWord_eq_some ((hlkXW (a / s.pagesize)).trans hlkXf)]
    show (writeInt s a v).mem (f * (writeInt s a v).pagesize + a % s.pagesize) = v
    rw [hWpg, hWmem]
    exact upd_same _ _ _
  · intro p o ho hne
    have hstep : abstractWord (writeInt s a v) p o
        = abstractWord (real_address s a true).1 p o := by
      cases hlp : lookup_in_mem (real_address s a true).1 p with
      | some g =>
        obtain ⟨hgP, hgp, _⟩ := lookup_in_mem_eq_some hlp
        rw [abstractWord_eq_some ((hlkXW p).trans hlp), abstractWord_eq_some hlp]
        show (writeInt s a v).mem (g * (writeInt s a v).pagesize + o) = _
        rw [hWpg, hWmem]
        have hne2 : g * s.pagesize + o ≠ f * s.pagesize + a % s.pagesize := by
          by_cases hgf : g = f
          · subst hgf
            have hp : p = a / s.pagesize := by
              rw [← hgp, h3]
            have hoa : o ≠ a % s.pagesize := fun h => hne ⟨hp, h⟩
            omega
          · rcases page_range_disjoint (q := f) hgf hadd with hlt | hge <;> omega
        rw [upd_other _ _ _ hne2]
        rw [hSX]
      | none =>
        rw [abstractWord_eq_none ((hlkXW p).trans hlp), abstractWord_eq_none hlp]
        rw [hWpg, hSX]
        rfl
    rw [hstep]
    exact h7 p o ho

theorem run_master (l : List Access) (s : VM) (hInv : Inv s)
    (hts : s.timestamp + l.length ≤ 2147483647) :
    Inv (run s l) ∧ (run s l).timestamp = s.timestamp + l.length ∧
    (∀ p o, o < s.pagesize →
      (∀ b w, Access.write b w ∈ l → ¬(p = b / s.pagesize ∧ o = b % s.pagesize)) →
      abstractWord (run s l) p o = abstractWord s p o) := by
  induction l generalizing s with
  | nil => exact ⟨hInv, by simp [run], fun p o _ _ => rfl⟩
  | cons acc l ih =>
    rw [List.length_cons] at hts
    have hts1 : s.timestamp < 2147483647 := by omega
    have hstep : Inv (step s acc) ∧ (step s acc).timestamp = s.timestamp + 1 ∧
        (∀ p o, o < s.pagesize →
          (∀ b w, acc = Access.write b w → ¬(p = b / s.pagesize ∧ o = b % s.pagesize)) →
          abstractWord (step s acc) p o = abstractWord s p o) := by
      cases acc with
      | read b =>
        obtain ⟨_, hI, hT, hA⟩ := readInt_master s b hInv hts1
        exact ⟨hI, hT, fun p o ho _ => hA p o ho⟩
      | write b w =>
        obtain ⟨hI, hT, _, hA⟩ := writeInt_master s b w hInv hts1
        exact ⟨hI, hT, fun p o ho hcond => hA p o ho (hcond b w rfl)⟩
    obtain ⟨hI1, hT1, hA1⟩ := hstep
    have hpg1 : (step s acc).pagesize = s.pagesize := (step_config s acc).1
    obtain ⟨hI2, hT2, hA2⟩ := ih (step s acc) hI1 (by rw [hT1]; omega)
    refine ⟨hI2, ?_, ?_⟩
    · show (run (step s acc) l).timestamp = s.timestamp + (acc :: l).length
      rw [hT2, hT1, List.length_cons]
      omega
    · intro p o ho hw
      show abstractWord (run (step s acc) l) p o = abstractWord s p o
      have hcond2 : ∀ b w, Access.write b w ∈ l →
          ¬(p = b / (step s acc).pagesize ∧ o = b % (step s acc).pagesize) := by
        intro b w hmem
        rw [hpg1]
        exact hw b w (List.mem_cons_of_mem acc hmem)
      rw [hA2 p o (by rw [hpg1]; exact ho) hcond2]
      refine hA1 p o ho ?_
      intro b w hacc
      refine hw b w ?_
      rw [← hacc]
      exact List.mem_cons_self acc l

theorem Inv_createVM (V P S T pa ta : Nat) (hS : 0 < S) (hP : 0 < P) (hTP : T ≤ P) :
    Inv (createVM V P S T pa ta) := by
  refine ⟨hS, hP, ⟨?_, ?_⟩, ?_, ?_, ?_⟩
  · intro i hi
    have hiT : i < T := hi
    have hiP : i < P := by omega
    constructor
    · show (if i < T then i else 0) < P
      rw [if_pos hiT]
      exact hiP
    · show (if (if i < T then i else 0) < P then (if i < T then i else 0) else 0)
        = (if i < T then i else 0)
      rw [if_pos hiT, if_pos hiP]
  · intro i j hi hj hij
    have hiT : i < T := hi
    have hjT : j < T := hj
    show (if i < T then i else 0) ≠ (if j < T then j else 0)
    rw [if_pos hiT, if_pos hjT]
    exact hij
  · intro f g hf hg hne
    have hfP : f < P := hf
    have hgP : g < P := hg
    show (if f < P then f else 0) ≠ (if g < P then g else 0)
    rw [if_pos hfP, if_pos hgP]
    exact hne
  · intro g hg hgd o ho
    rfl
  · intro g hg
    exact Nat.le_refl 0

/-- C3: dirty-page round trip.  For every valid configuration
(`0 < S`, `0 < T ≤ P < V`) and in-range address `a`: after any in-range
warm-up accesses `l0`, writing `v` to `a` and then performing any in-range
accesses `l1` that never write to `a` — in particular sequences that evict
`a`'s dirty page and fault it back in — a final read of `a` returns `v`.
The clock hypothesis bounds the total number of accesses by the C `int`
range, within which the program's logical clock is well defined.  The
second conjunct is the disk-write accounting: every single translation
request increments `diskWrites` by exactly one when (and only when) it
evicts a dirty page, so in the scenario above the dirty eviction of `a`'s
page accounts for exactly one disk write. -/
theorem dirty_round_trip (V P S T pa ta : Nat) (hS : 0 < S) (hT : 0 < T) (hTP : T ≤ P)
    (hPV : P < V)
    (l0 : List Access) (hl0 : ∀ acc, acc ∈ l0 → Access.addr acc < V * S)
    (a : Nat) (ha : a < V * S) (v : Int)
    (l1 : List Access) (hl1r : ∀ acc, acc ∈ l1 → Access.addr acc < V * S)
    (hl1 : ∀ acc, acc ∈ l1 → ∀ w, acc ≠ Access.write a w)
    (hlen : l0.length + l1.length + 2 ≤ 2147483647) :
    (readInt (run (writeInt (run (createVM V P S T pa ta) l0) a v) l1) a).2 = v ∧
    (∀ (t : VM) (b : Nat) (d : Bool),
      (real_address t b d).1.dc = t.dc + (if evictsDirty t b then 1 else 0)) := by
  refine ⟨?_, fun t b d => real_address_dc t b d⟩
  have hP : 0 < P := by omega
  have h0 : Inv (createVM V P S T pa ta) := Inv_createVM V P S T pa ta hS hP hTP
  have hts0 : (createVM V P S T pa ta).timestamp = 0 := rfl
  obtain ⟨hI1, hT1, _⟩ := run_master l0 (createVM V P S T pa ta) h0 (by omega)
  have hpg1 : (run (createVM V P S T pa ta) l0).pagesize = S := (run_config _ l0).1
  have hts1 : (run (createVM V P S T pa ta) l0).timestamp = l0.length := by
    rw [hT1, hts0]
    omega
  obtain ⟨hI2, hT2, hV2, _⟩ :=
    writeInt_master (run (createVM V P S T pa ta) l0) a v hI1 (by omega)
  have hpg2 : (writeInt (run (createVM V P S T pa ta) l0) a v).pagesize = S :=
    ((real_address_config _ a true).1).trans hpg1
  obtain ⟨hI3, hT3, hA3⟩ :=
    run_master l1 (writeInt (run (createVM V P S T pa ta) l0) a v) hI2 (by omega)
  obtain ⟨hval, _, _, _⟩ :=
    readInt_master (run (writeInt (run (createVM V P S T pa ta) l0) a v) l1) a hI3
      (by omega)
  have hpg3 : (run (writeInt (run (createVM V P S T pa ta) l0) a v) l1).pagesize = S :=
    ((run_config _ l1).1).trans hpg2
  rw [hval, hpg3]
  have hcond : ∀ b w, Access.write b w ∈ l1 →
      ¬(a / S = b / (writeInt (run (createVM V P S T pa ta) l0) a v).pagesize ∧
        a % S = b % (writeInt (run (createVM V P S T pa ta) l0) a v).pagesize) := by
    intro b w hmem hand
    obtain ⟨hd, hm⟩ := hand
    rw [hpg2] at hd hm
    have hab : a = b := by
      calc a = S * (a / S) + a % S := (Nat.div_add_mod a S).symm
        _ = S * (b / S) + b % S := by rw [hd, hm]
        _ = b := Nat.div_add_mod b S
    exact hl1 _ hmem w (by rw [hab])
  have hgoal := hA3 (a / S) (a % S)
    (by rw [hpg2]; exact Nat.mod_lt a hS) hcond
  rw [hgoal]
  rw [hpg1] at hV2
  exact hV2

/-- Witness for C3 with a concrete dirty round trip: in `createVM 4 2 2 1`
(round-robin), write 7 to address 0 (page 0 becomes dirty in frame 0),
then read addresses 4 and 6 (two faults: frame 0's dirty page 0 is
written to disk and evicted, then frame 1 is evicted); the final read of
address 0 faults page 0 back in from disk and returns 7. -/
theorem dirty_round_trip_witness :
    (readInt (run (writeInt (run (createVM 4 2 2 1 0 0) []) 0 7) [.read 4, .read 6])
      0).2 = 7 :=
  (dirty_round_trip 4 2 2 1 0 0 (by decide) (by decide) (by decide) (by decide)
    [] (by decide) 0 (by decide) 7 [.read 4, .read 6] (by decide)
    (by
      intro acc hacc w
      simp only [List.mem_cons, List.not_mem_nil, or_false] at hacc
      rcases hacc with rfl | rfl <;> exact fun h => Access.noConfusion h)
    (by decide)).1

end SimVM
